import Mathlib

/-!
The SVG renderer `system/svg.go` of mk12/sfc.

A shallow embedding of `svg.go` and the properties of its three functions
`calcViewBox`, `precise` and `System.SVG`.

Modelling choices.

* A finite `float64` value is the rational number it denotes (`ℚ`). Every
  arithmetic operation of the program on `float64` values is the exact
  operation followed by `fl64`, the rounding of binary64 arithmetic (53-bit
  significand, exponents from `-1022`, subnormal values, ties to the even
  significand). Comparisons are exact. Overflow to an infinity, NaN and the
  negative zero are outside the model. The inputs (coordinates, thickness,
  `stepFactor`) are arbitrary rationals; a theorem that needs them to be
  binary64 values says so (`fl64 x = x`).
* A Go `string` is a `String`; `bytes.Buffer` is a `String` that the writes
  extend on the right; `fmt.Fprintf` with `%s` verbs inserts its arguments
  unchanged.
* `[]T` is `List T`; a `for ... range` loop is a left fold over the list that
  threads the variables the body assigns.
* `strconv.FormatFloat(f, 'f', prec, 64)` and `strings.TrimRight` belong to the
  Go standard library; they are modelled from their documented behaviour.
  `FormatFloat` rounds the exact value of its argument.
* `Options.Precision` is a Go `int`. A negative precision makes `FormatFloat`
  choose the shortest representation that round-trips the binary64 value,
  which depends on the binary encoding; the field is a `Nat` here.
* `vector`, `System` and `stepFactor` are declared in another file of the
  package. `vector` and `System` carry the fields `svg.go` uses; `stepFactor`
  is a parameter of `SVG`.
-/

namespace Sfc

/-! ## Data model -/

/-- The `vector` of the package: a point of the plane (`pt.x`, `pt.y`). -/
structure vector where
  x : ℚ
  y : ℚ
  deriving DecidableEq, Repr

/-- The `Options` struct: settings for rendering systems as SVG. -/
structure Options where
  Depth : Int
  Thickness : ℚ
  Color : String
  Precision : Nat
  deriving DecidableEq, Repr

/-- The `viewBox` struct: the boundaries of an SVG image. -/
structure viewBox where
  x : ℚ
  y : ℚ
  w : ℚ
  h : ℚ
  deriving DecidableEq, Repr

/-- The part of `System` that `SVG` reads: the field `min` and the method
`render`. -/
structure System where
  min : Int
  render : Int → List (List vector)

/-- The constant `paddingFactor = 1.5`. -/
def paddingFactor : ℚ := 3 / 2

/-! ## binary64 arithmetic -/

/-- Round a non-negative rational to the nearest natural number, ties to the
even one: the rounding `strconv.FormatFloat` applies to the exact value at the
last digit it keeps, and the rounding of binary64 arithmetic at the last bit of
the significand. -/
def roundHalfEven (q : ℚ) : Nat :=
  let fl := (Rat.floor q).toNat
  let r := q - fl
  if r < 1 / 2 then fl
  else if 1 / 2 < r then fl + 1
  else if fl % 2 = 0 then fl else fl + 1

/-- The power `2 ^ k` for an integer exponent `k`. -/
def pow2 (k : Int) : ℚ :=
  if 0 ≤ k then ((2 ^ k.toNat : Nat) : ℚ) else 1 / ((2 ^ (-k).toNat : Nat) : ℚ)

/-- The number of halvings that bring `n` below 2, on at most `fuel` steps:
the binary logarithm of `n`, rounded down, when `n ≤ fuel`. -/
def log2Aux : Nat → Nat → Nat
  | 0, _ => 0
  | fuel + 1, n => if n < 2 then 0 else log2Aux fuel (n / 2) + 1

/-- The binary exponent of a positive rational `a`: the integer `e` with
`2 ^ e ≤ a < 2 ^ (e + 1)`. -/
def ilog2 (a : ℚ) : Int :=
  let e0 : Int := (log2Aux a.num.natAbs a.num.natAbs : Int) - (log2Aux a.den a.den : Int)
  if pow2 e0 ≤ a then e0 else e0 - 1

/-- The exponent binary64 uses for a positive value `a`: its binary exponent,
and `-1022` for the subnormal values below `2 ^ (-1022)`. -/
def expo (a : ℚ) : Int := max (ilog2 a) (-1022)

/-- The value of the last bit of the 53-bit significand at `a`. -/
def ulp (a : ℚ) : ℚ := pow2 (expo a - 52)

/-- The result of a binary64 operation whose exact result is `q`: the nearest
number with a 53-bit significand (and an exponent of at least `-1022`), ties
to the even significand. Results beyond the largest finite binary64 value
(overflow to an infinity) are outside the model: the grid continues upward. -/
def fl64 (q : ℚ) : ℚ :=
  if q = 0 then 0
  else (if q < 0 then -1 else 1) * ((roundHalfEven (|q| / ulp |q|) : Nat) : ℚ) * ulp |q|

/-! ## `calcViewBox` -/

/-- The four local variables `xMin, xMax, yMin, yMax` of `calcViewBox`. -/
structure Bounds where
  xMin : ℚ
  xMax : ℚ
  yMin : ℚ
  yMax : ℚ
  deriving DecidableEq, Repr

/-- The body of the inner loop of `calcViewBox`: the two `if / else if`
statements, run on one point. -/
def visit (b : Bounds) (pt : vector) : Bounds :=
  let b :=
    if pt.x < b.xMin then { b with xMin := pt.x }
    else if pt.x > b.xMax then { b with xMax := pt.x }
    else b
  let b :=
    if pt.y < b.yMin then { b with yMin := pt.y }
    else if pt.y > b.yMax then { b with yMax := pt.y }
    else b
  b

/-- The nested loops of `calcViewBox`, started from the zero values of
`var xMin, xMax, yMin, yMax float64`. -/
def scan (segments : List (List vector)) : Bounds :=
  segments.foldl (fun b points => points.foldl visit b) ⟨0, 0, 0, 0⟩

/-- The function `calcViewBox`; each `float64` operation is rounded. -/
def calcViewBox (segments : List (List vector)) (opts : Options) : viewBox :=
  let b := scan segments
  let edge := fl64 (fl64 (paddingFactor * opts.Thickness) / 2)
  let xMin := fl64 (b.xMin - edge)
  let yMin := fl64 (b.yMin - edge)
  let xMax := fl64 (b.xMax + edge)
  let yMax := fl64 (b.yMax + edge)
  let width := fl64 (xMax - xMin)
  let height := fl64 (yMax - yMin)
  ⟨xMin, yMin, width, height⟩

/-! ## `precise` -/

/-- The `w` lowest decimal digits of `n`, most significant first, zero
padded. -/
def fixedDigits : Nat → Nat → List Char
  | 0, _ => []
  | w + 1, n => fixedDigits w (n / 10) ++ [Nat.digitChar (n % 10)]

/-- The value of `f` scaled by `10 ^ prec` and rounded: the digits that
`FormatFloat` prints, as one number. -/
def scaled (f : ℚ) (prec : Nat) : Nat :=
  roundHalfEven (|f| * 10 ^ prec)

/-- The sign `FormatFloat` prints: `-` for a negative value, nothing
otherwise. -/
def signPart (f : ℚ) : String :=
  if f < 0 then "-" else ""

/-- The digits `FormatFloat` prints before the decimal point. -/
def wholePart (f : ℚ) (prec : Nat) : String :=
  Nat.repr (scaled f prec / 10 ^ prec)

/-- The `prec` digits `FormatFloat` prints after the decimal point. -/
def fracPart (f : ℚ) (prec : Nat) : List Char :=
  fixedDigits prec (scaled f prec % 10 ^ prec)

/-- The library call `strconv.FormatFloat(f, 'f', prec, 64)` on a finite
value: sign, integer digits and, when `prec > 0`, a decimal point followed by
exactly `prec` digits. -/
def FormatFloat (f : ℚ) (prec : Nat) : String :=
  if 0 < prec then
    signPart f ++ wholePart f prec ++ "." ++ String.mk (fracPart f prec)
  else
    signPart f ++ wholePart f prec

/-- The library call `strings.TrimRight(s, cutset)`: `s` without its trailing
characters that occur in `cutset`. -/
def TrimRight (s cutset : String) : String :=
  String.mk (s.data.rdropWhile (fun c => decide (c ∈ cutset.data)))

/-- The function `precise`. -/
def precise (f : ℚ) (precision : Nat) : String :=
  let str := FormatFloat f precision
  let str := TrimRight str "0"
  let str := TrimRight str "."
  str

/-! ## `System.SVG` -/

/-- Addition of two Go `int` values: 64 bits, two's complement, wrapping. -/
def intAdd (a b : Int) : Int :=
  (a + b + 2 ^ 63) % 2 ^ 64 - 2 ^ 63

/-- The first `fmt.Fprintf` of `SVG`: the root tag and the style rule. -/
def header (view : viewBox) (thickness : ℚ) (opts : Options) : String :=
  "<svg xmlns='http://www.w3.org/2000/svg' viewBox='"
    ++ precise view.x opts.Precision ++ " "
    ++ precise view.y opts.Precision ++ " "
    ++ precise view.w opts.Precision ++ " "
    ++ precise view.h opts.Precision ++ "'>"
    ++ "<defs><style>polyline \x7b fill: none; stroke-linecap: square; "
    ++ "stroke-width: " ++ precise thickness opts.Precision
    ++ "; stroke: " ++ opts.Color ++ "; \x7d</style></defs>"

/-- The body of the inner loop of `SVG`: one point appended to the buffer. -/
def writePoint (opts : Options) (buf : String) (pt : vector) : String :=
  let x := precise pt.x opts.Precision
  let y := precise pt.y opts.Precision
  buf ++ (x ++ "," ++ y ++ " ")

/-- The body of the outer loop of `SVG`: one polyline appended to the
buffer. -/
def writeSegment (opts : Options) (buf : String) (points : List vector) : String :=
  let buf := buf ++ "<polyline points='"
  let buf := points.foldl (writePoint opts) buf
  buf ++ "'/>"

/-- The method `System.SVG`, with the package constant `stepFactor` as its
first argument. -/
def SVG (stepFactor : ℚ) (s : System) (opts : Options) : String :=
  let segments := s.render (intAdd s.min opts.Depth)
  let view := calcViewBox segments opts
  let thickness := fl64 (fl64 (opts.Thickness * view.w) / stepFactor)
  let buf := ""
  let buf := buf ++ header view thickness opts
  let buf := segments.foldl (writeSegment opts) buf
  let buf := buf ++ "</svg>"
  buf

/-! ## Reference definitions for the bounding box -/

/-- The update of the four bounds with independent minimum and maximum, the
reading of the loop body the documentation gives. -/
def visitBoth (b : Bounds) (pt : vector) : Bounds :=
  ⟨min b.xMin pt.x, max b.xMax pt.x, min b.yMin pt.y, max b.yMax pt.y⟩

/-- The pad `calcViewBox` uses on every side: `1.5 * thickness / 2` in
binary64 arithmetic. -/
def pad (opts : Options) : ℚ := fl64 (fl64 (3 / 2 * opts.Thickness) / 2)

/-- The least of zero and the numbers of a list. -/
def lowest (l : List ℚ) : ℚ := l.foldl min 0

/-- The greatest of zero and the numbers of a list. -/
def highest (l : List ℚ) : ℚ := l.foldl max 0

/-- The x coordinates of all points of all segments. -/
def xCoords (segments : List (List vector)) : List ℚ :=
  segments.flatten.map (fun pt => pt.x)

/-- The y coordinates of all points of all segments. -/
def yCoords (segments : List (List vector)) : List ℚ :=
  segments.flatten.map (fun pt => pt.y)

/-- The set of the x coordinates of the points, together with zero. -/
def xSet (segments : List (List vector)) : Set ℚ :=
  {r | r = 0 ∨ ∃ points ∈ segments, ∃ pt ∈ points, pt.x = r}

/-- The set of the y coordinates of the points, together with zero. -/
def ySet (segments : List (List vector)) : Set ℚ :=
  {r | r = 0 ∨ ∃ points ∈ segments, ∃ pt ∈ points, pt.y = r}

/-! ## Reference definitions for the formatter -/

/-- The natural number a list of decimal digits denotes, if all its
characters are digits. -/
def digitsValue (l : List Char) : Option Nat :=
  l.foldl (fun acc c => acc.bind fun n =>
    if c.isDigit then some (10 * n + (c.toNat - 48)) else none) (some 0)

/-- The number a decimal numeral denotes: an optional `-`, at least one digit,
and optionally a point followed by digits. -/
def decimalValue (s : String) : Option ℚ :=
  let neg := s.data.head? = some '-'
  let body := if neg then s.data.drop 1 else s.data
  let whole := body.takeWhile (fun c => c != '.')
  let frac := (body.dropWhile (fun c => c != '.')).drop 1
  if whole = [] then none
  else
    match digitsValue whole, digitsValue frac with
    | some a, some b =>
      some ((if neg then -1 else 1) * ((a : ℚ) + (b : ℚ) / 10 ^ frac.length))
    | _, _ => none

/-- The value `v` rounded to `p` decimal places (ties to even). -/
def roundTo (v : ℚ) (p : Nat) : ℚ :=
  (if v < 0 then -1 else 1) * ((scaled v p : ℚ) / 10 ^ p)

/-! ## Reference definitions for the document -/

/-- The root tag of the document, with the four numbers of the `viewBox`
attribute as strings. -/
def rootTag (X Y W H : String) : String :=
  "<svg xmlns='http://www.w3.org/2000/svg' viewBox='" ++ X ++ " " ++ Y ++ " " ++ W
    ++ " " ++ H ++ "'>"

/-- The style rule of the document, with the stroke width `T` and the color
`C` as strings. -/
def styleRule (T C : String) : String :=
  "<defs><style>polyline \x7b fill: none; stroke-linecap: square; stroke-width: " ++ T
    ++ "; stroke: " ++ C ++ "; \x7d</style></defs>"

/-- The polyline elements of the document: what the loops of `SVG` write,
started on an empty buffer. -/
def polylines (opts : Options) (segments : List (List vector)) : String :=
  segments.foldl (writeSegment opts) ""

/-- The text `SVG` writes for one point: `x,y` followed by one space. -/
def pointPair (opts : Options) (pt : vector) : String :=
  precise pt.x opts.Precision ++ "," ++ precise pt.y opts.Precision ++ " "

/-- One polyline element: the opening text, the point pairs of the segment in
order, and the closing text. -/
def polylineElement (opts : Options) (points : List vector) : String :=
  "<polyline points='" ++ String.join (points.map (pointPair opts)) ++ "'/>"

/-- The document as a function of the segment set and the options: root tag,
style rule, one polyline element for each segment, closing tag. -/
def document (stepFactor : ℚ) (segments : List (List vector)) (opts : Options) : String :=
  rootTag (precise (calcViewBox segments opts).x opts.Precision)
      (precise (calcViewBox segments opts).y opts.Precision)
      (precise (calcViewBox segments opts).w opts.Precision)
      (precise (calcViewBox segments opts).h opts.Precision)
    ++ styleRule
        (precise (fl64 (fl64 (opts.Thickness * (calcViewBox segments opts).w) / stepFactor))
          opts.Precision)
        opts.Color
    ++ String.join (segments.map (polylineElement opts))
    ++ "</svg>"

/-- The document with the line structure of the documented template: a line
break after the root tag, after the style rule and after each polyline. -/
def templateLines (stepFactor : ℚ) (segments : List (List vector)) (opts : Options) :
    String :=
  rootTag (precise (calcViewBox segments opts).x opts.Precision)
      (precise (calcViewBox segments opts).y opts.Precision)
      (precise (calcViewBox segments opts).w opts.Precision)
      (precise (calcViewBox segments opts).h opts.Precision)
    ++ "\n"
    ++ styleRule
        (precise (fl64 (fl64 (opts.Thickness * (calcViewBox segments opts).w) / stepFactor))
          opts.Precision)
        opts.Color
    ++ "\n"
    ++ String.join (segments.map (fun points => polylineElement opts points ++ "\n"))
    ++ "</svg>"

/-- Whether the list `s` starts with the list `pat`. -/
def startsWith : List Char → List Char → Bool
  | _, [] => true
  | [], _ :: _ => false
  | c :: s, p :: pat => c == p && startsWith s pat

/-- The number of positions of `s` at which `pat` occurs. -/
def occurrences (pat : List Char) : List Char → Nat
  | [] => 0
  | c :: s => (if startsWith (c :: s) pat then 1 else 0) + occurrences pat s

/-- The text `<polyline` that opens a polyline element. -/
def polylineOpen : List Char := "<polyline".data

/-- Whether every non-empty end part of `s` either starts with `pat` or is no
beginning of `pat`: then text written after `s` adds no occurrence of `pat`
that reaches back into `s`. -/
def safe (pat : List Char) : List Char → Bool
  | [] => true
  | c :: s => (startsWith (c :: s) pat || !startsWith pat (c :: s)) && safe pat s

/-! ## Lemmas on binary64 rounding -/

theorem pow2_eq (k : Int) : pow2 k = (2 : ℚ) ^ k := by
  unfold pow2
  split
  · next h =>
    rw [Nat.cast_pow, Nat.cast_ofNat, ← zpow_natCast, Int.toNat_of_nonneg h]
  · next h =>
    have h' : (0 : Int) ≤ -k := by omega
    rw [Nat.cast_pow, Nat.cast_ofNat, ← zpow_natCast, Int.toNat_of_nonneg h', zpow_neg,
      one_div, inv_inv]

theorem pow2_pos (k : Int) : 0 < pow2 k := by
  rw [pow2_eq]; exact zpow_pos (by norm_num) k

theorem pow2_add (a b : Int) : pow2 (a + b) = pow2 a * pow2 b := by
  simp only [pow2_eq]; exact zpow_add₀ (by norm_num) a b

theorem pow2_le_iff (a b : Int) : pow2 a ≤ pow2 b ↔ a ≤ b := by
  simp only [pow2_eq]; exact zpow_le_zpow_iff_right₀ (by norm_num)

theorem pow2_lt_iff (a b : Int) : pow2 a < pow2 b ↔ a < b := by
  simp only [pow2_eq]; exact zpow_lt_zpow_iff_right₀ (by norm_num)

theorem pow2_natCast (n : Nat) : pow2 (n : Int) = ((2 ^ n : Nat) : ℚ) := by
  rw [pow2_eq, zpow_natCast, Nat.cast_pow, Nat.cast_ofNat]

theorem pow2_succ (k : Int) : pow2 (k + 1) = 2 * pow2 k := by
  rw [pow2_add, mul_comm]
  congr 1

theorem log2Aux_spec (fuel : Nat) :
    ∀ n : Nat, 0 < n → n ≤ fuel →
      2 ^ log2Aux fuel n ≤ n ∧ n < 2 ^ (log2Aux fuel n + 1) := by
  induction fuel with
  | zero => intro n h1 h2; omega
  | succ fuel ih =>
    intro n h1 h2
    simp only [log2Aux]
    split
    · next h => simp; omega
    · next h =>
      obtain ⟨i1, i2⟩ := ih (n / 2) (by omega) (by omega)
      rw [pow_succ, pow_succ]
      rw [pow_succ] at i2
      constructor <;> omega

/-- The exponent `ilog2 a` brackets a positive `a` between two powers
of 2. -/
theorem ilog2_spec (a : ℚ) (ha : 0 < a) :
    pow2 (ilog2 a) ≤ a ∧ a < pow2 (ilog2 a + 1) := by
  unfold ilog2
  simp only
  have hnum : 0 < a.num := Rat.num_pos.mpr ha
  have hn : 0 < a.num.natAbs := Int.natAbs_pos.mpr hnum.ne'
  have hd : 0 < a.den := a.den_pos
  obtain ⟨n1, n2⟩ := log2Aux_spec _ _ hn le_rfl
  obtain ⟨d1, d2⟩ := log2Aux_spec _ _ hd le_rfl
  have hq : a = (a.num.natAbs : ℚ) / (a.den : ℚ) := by
    have h := (Rat.num_div_den a).symm
    have e : ((a.num.natAbs : Int) : ℚ) = (a.num : ℚ) := by
      rw [Int.natAbs_of_nonneg hnum.le]
    rw [Int.cast_natCast] at e
    rw [e]; exact h
  generalize a.num.natAbs = n at hn n1 n2 hq ⊢
  generalize a.den = d at hd d1 d2 hq ⊢
  generalize log2Aux n n = ln at n1 n2 ⊢
  generalize log2Aux d d = ld at d1 d2 ⊢
  have n1' : pow2 ln ≤ (n : ℚ) := by rw [pow2_natCast]; exact_mod_cast n1
  have n2' : (n : ℚ) < pow2 (ln + 1) := by
    have : ((ln : Int) + 1) = ((ln + 1 : Nat) : Int) := by push_cast; ring
    rw [this, pow2_natCast]; exact_mod_cast n2
  have d1' : pow2 ld ≤ (d : ℚ) := by rw [pow2_natCast]; exact_mod_cast d1
  have d2' : (d : ℚ) < pow2 (ld + 1) := by
    have : ((ld : Int) + 1) = ((ld + 1 : Nat) : Int) := by push_cast; ring
    rw [this, pow2_natCast]; exact_mod_cast d2
  have hdq : (0 : ℚ) < d := by exact_mod_cast hd
  split
  · next h =>
    refine ⟨h, ?_⟩
    rw [hq, div_lt_iff₀ hdq]
    calc (n : ℚ) < pow2 (ln + 1) := n2'
      _ = pow2 ((ln : Int) - ld + 1) * pow2 ld := by rw [← pow2_add]; congr 1; ring
      _ ≤ pow2 ((ln : Int) - ld + 1) * d :=
          mul_le_mul_of_nonneg_left d1' (pow2_pos _).le
  · next h =>
    refine ⟨?_, by rw [sub_add_cancel]; exact lt_of_not_le h⟩
    rw [hq, le_div_iff₀ hdq]
    calc pow2 ((ln : Int) - ld - 1) * d
        ≤ pow2 ((ln : Int) - ld - 1) * pow2 (ld + 1) :=
          mul_le_mul_of_nonneg_left d2'.le (pow2_pos _).le
      _ = pow2 ln := by rw [← pow2_add]; congr 1; ring
      _ ≤ n := n1'

theorem ilog2_lt_of_lt (a : ℚ) (ha : 0 < a) (k : Int) (h : a < pow2 k) : ilog2 a < k :=
  (pow2_lt_iff _ _).mp (lt_of_le_of_lt (ilog2_spec a ha).1 h)

theorem le_ilog2_of_le (a : ℚ) (ha : 0 < a) (k : Int) (h : pow2 k ≤ a) : k ≤ ilog2 a := by
  have := (pow2_lt_iff _ _).mp (lt_of_le_of_lt h (ilog2_spec a ha).2)
  omega

theorem ilog2_mono (x y : ℚ) (hx : 0 < x) (hxy : x ≤ y) : ilog2 x ≤ ilog2 y :=
  le_ilog2_of_le y (lt_of_lt_of_le hx hxy) _ (le_trans (ilog2_spec x hx).1 hxy)

theorem roundHalfEven_natCast (n : Nat) : roundHalfEven (n : ℚ) = n := by
  have hf : Rat.floor (n : ℚ) = (n : Int) := @Int.floor_natCast ℚ _ _ n
  simp only [roundHalfEven, hf, Int.toNat_ofNat, sub_self]
  norm_num

/-- The rounded value lies between the floor and the floor plus one. -/
theorem roundHalfEven_bounds (q : ℚ) (hq : 0 ≤ q) :
    ((Rat.floor q).toNat : ℚ) ≤ q ∧ q < ((Rat.floor q).toNat : ℚ) + 1 ∧
      (Rat.floor q).toNat ≤ roundHalfEven q ∧
      roundHalfEven q ≤ (Rat.floor q).toNat + 1 := by
  have h0 : (0 : Int) ≤ Rat.floor q := Int.floor_nonneg.mpr hq
  have hc : (((Rat.floor q).toNat : Int) : ℚ) = ((Rat.floor q : Int) : ℚ) := by
    rw [Int.toNat_of_nonneg h0]
  rw [Int.cast_natCast] at hc
  refine ⟨by rw [hc]; exact Int.floor_le q, by rw [hc]; exact Int.lt_floor_add_one q, ?_, ?_⟩
  · simp only [roundHalfEven]
    split_ifs <;> omega
  · simp only [roundHalfEven]
    split_ifs <;> omega

theorem roundHalfEven_mono (x y : ℚ) (hx : 0 ≤ x) (hxy : x ≤ y) :
    roundHalfEven x ≤ roundHalfEven y := by
  have hy : 0 ≤ y := le_trans hx hxy
  obtain ⟨x1, x2, x3, x4⟩ := roundHalfEven_bounds x hx
  obtain ⟨y1, y2, y3, y4⟩ := roundHalfEven_bounds y hy
  have hfl : (Rat.floor x).toNat ≤ (Rat.floor y).toNat :=
    Int.toNat_le_toNat (Int.floor_mono hxy)
  rcases Nat.lt_or_eq_of_le hfl with hlt | heq
  · omega
  · simp only [roundHalfEven]
    rw [← heq]
    have hr : x - ((Rat.floor x).toNat : ℚ) ≤ y - ((Rat.floor x).toNat : ℚ) := by linarith
    generalize (Rat.floor x).toNat = k at hr ⊢
    split_ifs <;> first | omega | (exfalso; linarith)

theorem roundHalfEven_le_of_le (q : ℚ) (hq : 0 ≤ q) (n : Nat) (h : q ≤ n) :
    roundHalfEven q ≤ n := by
  have := roundHalfEven_mono q n hq h
  rwa [roundHalfEven_natCast] at this

theorem le_roundHalfEven_of_le (q : ℚ) (n : Nat) (h : (n : ℚ) ≤ q) :
    n ≤ roundHalfEven q := by
  have := roundHalfEven_mono n q (Nat.cast_nonneg n) h
  rwa [roundHalfEven_natCast] at this

theorem fl64_zero : fl64 0 = 0 := by
  simp [fl64]

theorem fl64_neg (q : ℚ) : fl64 (-q) = -fl64 q := by
  unfold fl64
  by_cases h0 : q = 0
  · simp [h0]
  · have h0' : -q ≠ 0 := neg_ne_zero.mpr h0
    rw [if_neg h0, if_neg h0', abs_neg]
    rcases lt_or_gt_of_ne h0 with h | h
    · have h' : ¬ (-q < 0) := by linarith
      rw [if_pos h, if_neg h']
      ring
    · have h' : -q < 0 := by linarith
      have h'' : ¬ (q < 0) := by linarith
      rw [if_pos h', if_neg h'']
      ring

theorem fl64_of_pos (a : ℚ) (ha : 0 < a) :
    fl64 a = ((roundHalfEven (a / ulp a) : Nat) : ℚ) * ulp a := by
  unfold fl64
  rw [if_neg ha.ne', if_neg (not_lt.mpr ha.le), abs_of_pos ha]
  ring

theorem ulp_pos (a : ℚ) : 0 < ulp a := pow2_pos _

theorem expo_ge (a : ℚ) : -1022 ≤ expo a := le_max_right _ _

theorem fl64_nonneg (a : ℚ) (ha : 0 ≤ a) : 0 ≤ fl64 a := by
  rcases eq_or_lt_of_le ha with h | h
  · rw [← h, fl64_zero]
  · rw [fl64_of_pos a h]
    exact mul_nonneg (Nat.cast_nonneg _) (ulp_pos a).le

theorem lt_pow2_expo (a : ℚ) (ha : 0 < a) : a < pow2 (expo a + 1) :=
  lt_of_lt_of_le (ilog2_spec a ha).2
    ((pow2_le_iff _ _).mpr (by have := le_max_left (ilog2 a) (-1022); unfold expo; omega))

theorem pow2_53_ulp (a : ℚ) : ((2 ^ 53 : Nat) : ℚ) * ulp a = pow2 (expo a + 1) := by
  unfold ulp
  rw [← pow2_natCast, ← pow2_add]
  congr 1
  push_cast
  ring

theorem pow2_52_ulp (a : ℚ) : ((2 ^ 52 : Nat) : ℚ) * ulp a = pow2 (expo a) := by
  unfold ulp
  rw [← pow2_natCast, ← pow2_add]
  congr 1
  push_cast
  ring

/-- The significand of a rounded value has at most 53 bits (it is `2 ^ 53`
when the value is rounded up to the next power of 2). -/
theorem significand_le (a : ℚ) (ha : 0 < a) : roundHalfEven (a / ulp a) ≤ 2 ^ 53 := by
  apply roundHalfEven_le_of_le _ (div_nonneg ha.le (ulp_pos a).le)
  rw [div_le_iff₀ (ulp_pos a), pow2_53_ulp]
  exact (lt_pow2_expo a ha).le

theorem fl64_le_pow2 (a : ℚ) (ha : 0 < a) : fl64 a ≤ pow2 (expo a + 1) := by
  rw [fl64_of_pos a ha, ← pow2_53_ulp]
  exact mul_le_mul_of_nonneg_right (by exact_mod_cast significand_le a ha) (ulp_pos a).le

/-- A value of the normal range is rounded to at least the power of 2 below
it. -/
theorem pow2_le_fl64 (a : ℚ) (ha : 0 < a) (hn : -1022 ≤ ilog2 a) : pow2 (expo a) ≤ fl64 a := by
  have he : expo a = ilog2 a := max_eq_left hn
  rw [fl64_of_pos a ha, ← pow2_52_ulp]
  apply mul_le_mul_of_nonneg_right _ (ulp_pos a).le
  have : 2 ^ 52 ≤ roundHalfEven (a / ulp a) := by
    apply le_roundHalfEven_of_le
    rw [le_div_iff₀ (ulp_pos a), pow2_52_ulp, he]
    exact (ilog2_spec a ha).1
  exact_mod_cast this

theorem expo_mono (x y : ℚ) (hx : 0 < x) (hxy : x ≤ y) : expo x ≤ expo y :=
  max_le_max (ilog2_mono x y hx hxy) le_rfl

theorem fl64_mono_pos (x y : ℚ) (hx : 0 < x) (hxy : x ≤ y) : fl64 x ≤ fl64 y := by
  have hy : 0 < y := lt_of_lt_of_le hx hxy
  rcases lt_or_eq_of_le (expo_mono x y hx hxy) with hlt | heq
  · have hny : -1022 ≤ ilog2 y := by
      by_contra hc
      have : expo y = -1022 := max_eq_right (by omega)
      have := expo_ge x
      omega
    calc fl64 x ≤ pow2 (expo x + 1) := fl64_le_pow2 x hx
      _ ≤ pow2 (expo y) := (pow2_le_iff _ _).mpr (by omega)
      _ ≤ fl64 y := pow2_le_fl64 y hy hny
  · have hu : ulp x = ulp y := by unfold ulp; rw [heq]
    rw [fl64_of_pos x hx, fl64_of_pos y hy, hu]
    apply mul_le_mul_of_nonneg_right _ (ulp_pos y).le
    have := roundHalfEven_mono (x / ulp y) (y / ulp y) (div_nonneg hx.le (ulp_pos y).le)
      (div_le_div_of_nonneg_right hxy (ulp_pos y).le)
    exact_mod_cast this

/-- Rounding is monotone. -/
theorem fl64_mono (x y : ℚ) (hxy : x ≤ y) : fl64 x ≤ fl64 y := by
  rcases lt_trichotomy x 0 with hx | hx | hx
  · rcases lt_or_le y 0 with hy | hy
    · have := fl64_mono_pos (-y) (-x) (by linarith) (by linarith)
      rw [fl64_neg, fl64_neg] at this
      linarith
    · have h1 := fl64_nonneg (-x) (by linarith)
      rw [fl64_neg] at h1
      have h2 := fl64_nonneg y hy
      linarith
  · rw [hx, fl64_zero]
    exact fl64_nonneg y (by rw [← hx]; exact hxy)
  · exact fl64_mono_pos x y hx hxy

/-- A number with a significand below `2 ^ 53` and an exponent of at least
`-1074` is a binary64 value: rounding leaves it unchanged. -/
theorem fl64_of_grid (m : Nat) (k : Int) (hm : m < 2 ^ 53) (hk : -1074 ≤ k) :
    fl64 ((m : ℚ) * pow2 k) = (m : ℚ) * pow2 k := by
  rcases Nat.eq_zero_or_pos m with h0 | hpos
  · simp [h0, fl64_zero]
  · have ha : 0 < (m : ℚ) * pow2 k := mul_pos (by exact_mod_cast hpos) (pow2_pos k)
    have hlt : (m : ℚ) * pow2 k < pow2 (k + 53) := by
      rw [add_comm, pow2_add, show (53 : Int) = ((53 : Nat) : Int) from rfl, pow2_natCast]
      exact mul_lt_mul_of_pos_right (by exact_mod_cast hm) (pow2_pos k)
    have hil := ilog2_lt_of_lt _ ha _ hlt
    have he : expo ((m : ℚ) * pow2 k) - 52 ≤ k := by
      unfold expo
      have := max_le (show ilog2 ((m : ℚ) * pow2 k) ≤ k + 52 by omega)
        (show (-1022 : Int) ≤ k + 52 by omega)
      omega
    rw [fl64_of_pos _ ha]
    unfold ulp
    generalize expo ((m : ℚ) * pow2 k) - 52 = j at he
    have hj : (0 : Int) ≤ k - j := by omega
    have hk' : pow2 k = ((2 ^ (k - j).toNat : Nat) : ℚ) * pow2 j := by
      rw [← pow2_natCast, Int.toNat_of_nonneg hj, ← pow2_add]
      congr 1
      ring
    have hq : (m : ℚ) * pow2 k / pow2 j = ((m * 2 ^ (k - j).toNat : Nat) : ℚ) := by
      rw [hk', Nat.cast_mul]
      field_simp [(pow2_pos j).ne']
      ring
    rw [hq, roundHalfEven_natCast, hk', Nat.cast_mul]
    ring

theorem fl64_of_grid_le (m : Nat) (k : Int) (hm : m ≤ 2 ^ 53) (hk : -1074 ≤ k) :
    fl64 ((m : ℚ) * pow2 k) = (m : ℚ) * pow2 k := by
  rcases Nat.lt_or_eq_of_le hm with h | h
  · exact fl64_of_grid m k h hk
  · have e : (m : ℚ) * pow2 k = ((2 ^ 52 : Nat) : ℚ) * pow2 (k + 1) := by
      rw [h, pow2_succ]
      push_cast
      ring
    rw [e]
    exact fl64_of_grid _ _ (by norm_num) (by omega)

/-- The form of a rounded positive value: a significand of at most `2 ^ 53`
times the unit in the last place. -/
theorem fl64_form (a : ℚ) (ha : 0 < a) :
    ∃ M : Nat, M ≤ 2 ^ 53 ∧ fl64 a = (M : ℚ) * pow2 (expo a - 52) ∧ -1074 ≤ expo a - 52 :=
  ⟨roundHalfEven (a / ulp a), significand_le a ha, fl64_of_pos a ha,
    by have := expo_ge a; omega⟩

/-- Rounding a rounded value changes nothing. -/
theorem fl64_idem (q : ℚ) : fl64 (fl64 q) = fl64 q := by
  rcases lt_trichotomy q 0 with h | h | h
  · obtain ⟨M, hM, hf, hk⟩ := fl64_form (-q) (by linarith)
    have e : fl64 q = -((M : ℚ) * pow2 (expo (-q) - 52)) := by
      rw [← hf, fl64_neg, neg_neg]
    rw [e, fl64_neg, fl64_of_grid_le M _ hM hk]
  · rw [h, fl64_zero, fl64_zero]
  · obtain ⟨M, hM, hf, hk⟩ := fl64_form q h
    rw [hf, fl64_of_grid_le M _ hM hk]

/-- The double of a binary64 value is a binary64 value. -/
theorem fl64_double (x : ℚ) (hx : fl64 x = x) : fl64 (2 * x) = 2 * x := by
  have key : ∀ a : ℚ, 0 < a → fl64 a = a → fl64 (2 * a) = 2 * a := by
    intro a ha hfa
    obtain ⟨M, hM, hf, hk⟩ := fl64_form a ha
    generalize expo a - 52 = k at hf hk
    have e : 2 * a = (M : ℚ) * pow2 (k + 1) := by
      rw [pow2_succ]
      calc 2 * a = 2 * fl64 a := by rw [hfa]
        _ = (M : ℚ) * (2 * pow2 k) := by rw [hf]; ring
    rw [e]
    exact fl64_of_grid_le M _ hM (by omega)
  rcases lt_trichotomy x 0 with h | h | h
  · have h1 : fl64 (-x) = -x := by rw [fl64_neg, hx]
    have := key (-x) (by linarith) h1
    have e : 2 * x = -(2 * -x) := by ring
    rw [e, fl64_neg, this]
  · rw [h, mul_zero, fl64_zero]
  · exact key x h hx

/-- The half of a binary64 value of at least `2 ^ (-1021)` is a binary64
value. -/
theorem fl64_half (x : ℚ) (hx : fl64 x = x) (hn : pow2 (-1021) ≤ x) :
    fl64 (x / 2) = x / 2 := by
  have ha : 0 < x := lt_of_lt_of_le (pow2_pos _) hn
  obtain ⟨M, hM, hf, _⟩ := fl64_form x ha
  have he : -1021 ≤ expo x :=
    le_trans (le_ilog2_of_le x ha _ hn) (le_max_left _ _)
  generalize expo x = ex at hf he
  have e : x / 2 = (M : ℚ) * pow2 (ex - 52 - 1) := by
    have h2 : pow2 (ex - 52) = 2 * pow2 (ex - 52 - 1) := by
      rw [← pow2_succ]; congr 1; ring
    calc x / 2 = fl64 x / 2 := by rw [hx]
      _ = (M : ℚ) * pow2 (ex - 52 - 1) := by rw [hf, h2]; ring
  rw [e]
  exact fl64_of_grid_le M _ hM (by omega)

theorem fl64_le_of_le (x r : ℚ) (hr : fl64 r = r) (h : x ≤ r) : fl64 x ≤ r := by
  have := fl64_mono x r h
  rwa [hr] at this

theorem le_fl64_of_le (x r : ℚ) (hr : fl64 r = r) (h : r ≤ x) : r ≤ fl64 x := by
  have := fl64_mono r x h
  rwa [hr] at this

theorem half_lt_pad_of_grid (M : Nat) (k : Int) (h4 : 4 ≤ M) (hM : M ≤ 2 ^ 53)
    (hk : -1074 ≤ k) :
    (M : ℚ) * pow2 k / 2 < fl64 (fl64 (3 / 2 * ((M : ℚ) * pow2 k)) / 2) := by
  have hp := pow2_pos k
  have hr : fl64 (((M / 2 + 1 : Nat) : ℚ) * pow2 k) = ((M / 2 + 1 : Nat) : ℚ) * pow2 k :=
    fl64_of_grid _ _ (by omega) hk
  have hr2 : fl64 (((M / 2 + 1 : Nat) : ℚ) * pow2 (k + 1))
      = ((M / 2 + 1 : Nat) : ℚ) * pow2 (k + 1) :=
    fl64_of_grid _ _ (by omega) (by omega)
  have hnat : (2 : ℚ) * ((M / 2 + 1 : Nat) : ℚ) ≤ 3 / 2 * (M : ℚ) := by
    have h1 : 2 * (M / 2) ≤ M := Nat.mul_div_le M 2
    have h2 : ((2 * (M / 2) : Nat) : ℚ) ≤ (M : ℚ) := by exact_mod_cast h1
    have h3 : (4 : ℚ) ≤ (M : ℚ) := by exact_mod_cast h4
    push_cast at h2 ⊢
    linarith
  have hgt : (M : ℚ) < 2 * ((M / 2 + 1 : Nat) : ℚ) := by
    have h1 : M < 2 * (M / 2 + 1) := by omega
    exact_mod_cast h1
  have s1 : ((M / 2 + 1 : Nat) : ℚ) * pow2 (k + 1) ≤ fl64 (3 / 2 * ((M : ℚ) * pow2 k)) := by
    apply le_fl64_of_le _ _ hr2
    rw [pow2_succ]
    nlinarith
  have s2 : ((M / 2 + 1 : Nat) : ℚ) * pow2 k
      ≤ fl64 (fl64 (3 / 2 * ((M : ℚ) * pow2 k)) / 2) := by
    apply le_fl64_of_le _ _ hr
    rw [pow2_succ] at s1
    linarith
  have s3 : (M : ℚ) * pow2 k / 2 < ((M / 2 + 1 : Nat) : ℚ) * pow2 k := by
    nlinarith
  linarith

/-- The pad `1.5 * t / 2`, computed in binary64, is larger than half of a
positive binary64 value `t`. -/
theorem half_lt_pad (t : ℚ) (ht : 0 < t) (hr : fl64 t = t) :
    t / 2 < fl64 (fl64 (3 / 2 * t) / 2) := by
  obtain ⟨M, hM, hf, hk⟩ := fl64_form t ht
  rw [hr] at hf
  generalize expo t - 52 = k at hf hk
  have hMpos : 0 < M := by
    rcases Nat.eq_zero_or_pos M with h | h
    · rw [h] at hf; simp at hf; linarith
    · exact h
  rw [hf]
  by_cases h4 : 4 ≤ M
  · exact half_lt_pad_of_grid M k h4 hM hk
  · by_cases hk2 : -1072 ≤ k
    · have e : (M : ℚ) * pow2 k = ((4 * M : Nat) : ℚ) * pow2 (k - 2) := by
        have : pow2 k = 4 * pow2 (k - 2) := by
          have h1 : pow2 k = pow2 (k - 2 + 1 + 1) := by congr 1; ring
          rw [h1, pow2_succ, pow2_succ]; ring
        rw [this]; push_cast; ring
      rw [e]
      exact half_lt_pad_of_grid (4 * M) (k - 2) (by omega) (by omega) (by omega)
    · have hk3 : k = -1074 ∨ k = -1073 := by omega
      have hM3 : M = 1 ∨ M = 2 ∨ M = 3 := by omega
      rcases hk3 with rfl | rfl <;> rcases hM3 with rfl | rfl | rfl <;> decide!

/-! ## Lemmas on the accumulation loop -/

theorem visit_eq_visitBoth (b : Bounds) (pt : vector)
    (hx : b.xMin ≤ b.xMax) (hy : b.yMin ≤ b.yMax) :
    visit b pt = visitBoth b pt := by
  obtain ⟨x0, x1, y0, y1⟩ := b
  simp only at hx hy
  simp only [visit, visitBoth]
  have ex : (if pt.x < x0 then (⟨pt.x, x1, y0, y1⟩ : Bounds)
      else if pt.x > x1 then ⟨x0, pt.x, y0, y1⟩ else ⟨x0, x1, y0, y1⟩)
      = ⟨min x0 pt.x, max x1 pt.x, y0, y1⟩ := by
    by_cases h1 : pt.x < x0
    · rw [if_pos h1, min_eq_right h1.le, max_eq_left (show pt.x ≤ x1 by linarith)]
    · rw [if_neg h1, min_eq_left (not_lt.mp h1)]
      by_cases h2 : pt.x > x1
      · rw [if_pos h2, max_eq_right h2.le]
      · rw [if_neg h2, max_eq_left (not_lt.mp h2)]
  rw [ex]
  simp only
  by_cases h1 : pt.y < y0
  · rw [if_pos h1, min_eq_right h1.le, max_eq_left (show pt.y ≤ y1 by linarith)]
  · rw [if_neg h1, min_eq_left (not_lt.mp h1)]
    by_cases h2 : pt.y > y1
    · rw [if_pos h2, max_eq_right (show y1 ≤ pt.y from h2.le)]
    · rw [if_neg h2, max_eq_left (show pt.y ≤ y1 from not_lt.mp h2)]

theorem visitBoth_ordered (b : Bounds) (pt : vector)
    (hx : b.xMin ≤ b.xMax) (hy : b.yMin ≤ b.yMax) :
    (visitBoth b pt).xMin ≤ (visitBoth b pt).xMax ∧
      (visitBoth b pt).yMin ≤ (visitBoth b pt).yMax := by
  simp only [visitBoth]
  exact ⟨(min_le_left _ _).trans (hx.trans (le_max_left _ _)),
    (min_le_left _ _).trans (hy.trans (le_max_left _ _))⟩

theorem foldl_visit (points : List vector) :
    ∀ b : Bounds, b.xMin ≤ b.xMax → b.yMin ≤ b.yMax →
      points.foldl visit b = points.foldl visitBoth b ∧
      (points.foldl visitBoth b).xMin ≤ (points.foldl visitBoth b).xMax ∧
      (points.foldl visitBoth b).yMin ≤ (points.foldl visitBoth b).yMax := by
  induction points with
  | nil => intro b hx hy; exact ⟨rfl, hx, hy⟩
  | cons pt rest ih =>
    intro b hx hy
    have ho := visitBoth_ordered b pt hx hy
    simp only [List.foldl_cons]
    rw [visit_eq_visitBoth b pt hx hy]
    exact ih _ ho.1 ho.2

theorem foldl_visitBoth (points : List vector) :
    ∀ b : Bounds, points.foldl visitBoth b =
      ⟨(points.map (fun pt => pt.x)).foldl min b.xMin,
       (points.map (fun pt => pt.x)).foldl max b.xMax,
       (points.map (fun pt => pt.y)).foldl min b.yMin,
       (points.map (fun pt => pt.y)).foldl max b.yMax⟩ := by
  induction points with
  | nil => intro b; rfl
  | cons pt rest ih => intro b; simp only [List.foldl_cons, List.map_cons, ih, visitBoth]

theorem scan_flatten (segments : List (List vector)) :
    scan segments = segments.flatten.foldl visit ⟨0, 0, 0, 0⟩ := by
  unfold scan
  rw [List.foldl_flatten]

theorem scan_eq (segments : List (List vector)) :
    scan segments = ⟨lowest (xCoords segments), highest (xCoords segments),
      lowest (yCoords segments), highest (yCoords segments)⟩ := by
  rw [scan_flatten, (foldl_visit segments.flatten ⟨0, 0, 0, 0⟩ le_rfl le_rfl).1,
    foldl_visitBoth]
  rfl

theorem foldl_min_isLeast (l : List ℚ) :
    ∀ a : ℚ, IsLeast {r | r = a ∨ r ∈ l} (l.foldl min a) := by
  induction l with
  | nil =>
    intro a
    refine ⟨Or.inl rfl, ?_⟩
    rintro r (rfl | h)
    · exact le_rfl
    · exact absurd h (List.not_mem_nil _)
  | cons c rest ih =>
    intro a
    obtain ⟨hm, hl⟩ := ih (min a c)
    simp only [List.foldl_cons]
    constructor
    · rcases hm with h | h
      · rw [h]
        rcases min_choice a c with e | e
        · exact Or.inl e
        · exact Or.inr (by rw [e]; exact List.mem_cons_self _ _)
      · exact Or.inr (List.mem_cons_of_mem _ h)
    · rintro r (rfl | h)
      · exact (hl (Or.inl rfl)).trans (min_le_left _ _)
      · rcases List.mem_cons.mp h with rfl | h
        · exact (hl (Or.inl rfl)).trans (min_le_right _ _)
        · exact hl (Or.inr h)

theorem foldl_max_isGreatest (l : List ℚ) :
    ∀ a : ℚ, IsGreatest {r | r = a ∨ r ∈ l} (l.foldl max a) := by
  induction l with
  | nil =>
    intro a
    refine ⟨Or.inl rfl, ?_⟩
    rintro r (rfl | h)
    · exact le_rfl
    · exact absurd h (List.not_mem_nil _)
  | cons c rest ih =>
    intro a
    obtain ⟨hm, hl⟩ := ih (max a c)
    simp only [List.foldl_cons]
    constructor
    · rcases hm with h | h
      · rw [h]
        rcases max_choice a c with e | e
        · exact Or.inl e
        · exact Or.inr (by rw [e]; exact List.mem_cons_self _ _)
      · exact Or.inr (List.mem_cons_of_mem _ h)
    · rintro r (rfl | h)
      · exact (le_max_left _ _).trans (hl (Or.inl rfl))
      · rcases List.mem_cons.mp h with rfl | h
        · exact (le_max_right _ _).trans (hl (Or.inl rfl))
        · exact hl (Or.inr h)

theorem xSet_eq (segments : List (List vector)) :
    xSet segments = {r | r = 0 ∨ r ∈ xCoords segments} := by
  ext r
  simp only [xSet, xCoords, Set.mem_setOf_eq, List.mem_map, List.mem_flatten]
  constructor
  · rintro (h | ⟨points, hp, pt, hpt, e⟩)
    · exact Or.inl h
    · exact Or.inr ⟨pt, ⟨points, hp, hpt⟩, e⟩
  · rintro (h | ⟨pt, ⟨points, hp, hpt⟩, e⟩)
    · exact Or.inl h
    · exact Or.inr ⟨points, hp, pt, hpt, e⟩

theorem ySet_eq (segments : List (List vector)) :
    ySet segments = {r | r = 0 ∨ r ∈ yCoords segments} := by
  ext r
  simp only [ySet, yCoords, Set.mem_setOf_eq, List.mem_map, List.mem_flatten]
  constructor
  · rintro (h | ⟨points, hp, pt, hpt, e⟩)
    · exact Or.inl h
    · exact Or.inr ⟨pt, ⟨points, hp, hpt⟩, e⟩
  · rintro (h | ⟨pt, ⟨points, hp, hpt⟩, e⟩)
    · exact Or.inl h
    · exact Or.inr ⟨points, hp, pt, hpt, e⟩

theorem lowest_isLeast (segments : List (List vector)) :
    IsLeast (xSet segments) (lowest (xCoords segments)) := by
  rw [xSet_eq]; exact foldl_min_isLeast _ 0

theorem highest_isGreatest (segments : List (List vector)) :
    IsGreatest (xSet segments) (highest (xCoords segments)) := by
  rw [xSet_eq]; exact foldl_max_isGreatest _ 0

theorem lowest_isLeast_y (segments : List (List vector)) :
    IsLeast (ySet segments) (lowest (yCoords segments)) := by
  rw [ySet_eq]; exact foldl_min_isLeast _ 0

theorem highest_isGreatest_y (segments : List (List vector)) :
    IsGreatest (ySet segments) (highest (yCoords segments)) := by
  rw [ySet_eq]; exact foldl_max_isGreatest _ 0

theorem calcViewBox_eq (segments : List (List vector)) (opts : Options) :
    calcViewBox segments opts =
      ⟨fl64 (lowest (xCoords segments) - pad opts),
       fl64 (lowest (yCoords segments) - pad opts),
       fl64 (fl64 (highest (xCoords segments) + pad opts)
         - fl64 (lowest (xCoords segments) - pad opts)),
       fl64 (fl64 (highest (yCoords segments) + pad opts)
         - fl64 (lowest (yCoords segments) - pad opts))⟩ := by
  simp only [calcViewBox, scan_eq, pad, paddingFactor]

theorem pad_nonneg (opts : Options) (ht : 0 ≤ opts.Thickness) : 0 ≤ pad opts := by
  unfold pad
  apply fl64_nonneg
  apply div_nonneg _ (by norm_num)
  apply fl64_nonneg
  linarith

theorem pad_rounded (opts : Options) : fl64 (pad opts) = pad opts := fl64_idem _

/-- The rounded lower edge `fl64 (lo - p)` and the rounded extent
`fl64 (fl64 (hi + p) - fl64 (lo - p))` of a range `lo ≤ 0 ≤ hi` padded by a
binary64 value `p ≥ 0`: the edge is at most 0, the edge plus the extent is at
least 0, and the extent is at least `2 * p`. -/
theorem padded_range (lo hi p : ℚ) (hlo : lo ≤ 0) (hhi : 0 ≤ hi) (hp : 0 ≤ p)
    (hpr : fl64 p = p) :
    fl64 (lo - p) ≤ 0 ∧ 0 ≤ fl64 (lo - p) + fl64 (fl64 (hi + p) - fl64 (lo - p)) ∧
      2 * p ≤ fl64 (fl64 (hi + p) - fl64 (lo - p)) := by
  have h1 : fl64 (lo - p) ≤ -p := by
    apply fl64_le_of_le _ _ (by rw [fl64_neg, hpr])
    linarith
  have h2 : p ≤ fl64 (hi + p) := le_fl64_of_le _ _ hpr (by linarith)
  have h3 : -fl64 (lo - p) ≤ fl64 (fl64 (hi + p) - fl64 (lo - p)) := by
    apply le_fl64_of_le _ _ (by rw [fl64_neg, fl64_idem])
    linarith
  have h4 : 2 * p ≤ fl64 (fl64 (hi + p) - fl64 (lo - p)) := by
    apply le_fl64_of_le _ _ (fl64_double p hpr)
    linarith
  exact ⟨by linarith, by linarith, h4⟩

/-! ## The viewport -/

/-- C1 (fails in binary64 arithmetic): for the segment `(-1,0) (1+2^-52,0)`
and the thickness `2^-100`, all binary64 values, `calcViewBox` returns
`x = -1` and `w = 2`: the pad is lost in the rounding of `xMin - edge` and of
`xMax + edge`, and the width `2 + 2^-52` is rounded to 2, so that
`x + w = 1` is less than the x coordinate `1 + 2^-52` of the second point. -/
theorem calcViewBox_misses_point :
    fl64 (1 + pow2 (-52)) = 1 + pow2 (-52) ∧ fl64 (pow2 (-100)) = pow2 (-100) ∧
      calcViewBox [[⟨-1, 0⟩, ⟨1 + pow2 (-52), 0⟩]] ⟨0, pow2 (-100), "black", 2⟩
        = ⟨-1, -(3 * pow2 (-102)), 2, 3 * pow2 (-101)⟩ ∧
      (calcViewBox [[⟨-1, 0⟩, ⟨1 + pow2 (-52), 0⟩]] ⟨0, pow2 (-100), "black", 2⟩).x
          + (calcViewBox [[⟨-1, 0⟩, ⟨1 + pow2 (-52), 0⟩]] ⟨0, pow2 (-100), "black", 2⟩).w
        < 1 + pow2 (-52) := by
  decide!

/-- What holds of C1 in binary64 arithmetic: for a non-negative thickness the
viewport starts at or before every point with binary64 coordinates, and the
padded maxima `xMax + edge` and `yMax + edge` the function computes are at or
after it. -/
theorem calcViewBox_left_top (segments : List (List vector)) (opts : Options)
    (ht : 0 ≤ opts.Thickness) (points : List vector) (hp : points ∈ segments)
    (pt : vector) (hpt : pt ∈ points) (hx : fl64 pt.x = pt.x) (hy : fl64 pt.y = pt.y) :
    (calcViewBox segments opts).x ≤ pt.x ∧ (calcViewBox segments opts).y ≤ pt.y ∧
      pt.x ≤ fl64 (highest (xCoords segments) + pad opts) ∧
      pt.y ≤ fl64 (highest (yCoords segments) + pad opts) := by
  have mx : pt.x ∈ xSet segments := Or.inr ⟨points, hp, pt, hpt, rfl⟩
  have my : pt.y ∈ ySet segments := Or.inr ⟨points, hp, pt, hpt, rfl⟩
  have h1 := (lowest_isLeast segments).2 mx
  have h2 := (highest_isGreatest segments).2 mx
  have h3 := (lowest_isLeast_y segments).2 my
  have h4 := (highest_isGreatest_y segments).2 my
  have hpad := pad_nonneg opts ht
  rw [calcViewBox_eq]
  exact ⟨fl64_le_of_le _ _ hx (by linarith), fl64_le_of_le _ _ hy (by linarith),
    le_fl64_of_le _ _ hx (by linarith), le_fl64_of_le _ _ hy (by linarith)⟩

/-- C2: for every segment set and every thickness `calcViewBox` returns
`x = xMin - pad`, `y = yMin - pad`, `w = (xMax + pad) - (xMin - pad)`,
`h = (yMax + pad) - (yMin - pad)` with `pad = 1.5 * t / 2`, each operation
being the binary64 one, where `xMin` is the least and `xMax` the greatest of
zero and the x coordinates of all points, and `yMin`, `yMax` likewise; the
`if / else if` loop computes the bounds that independent minimum and maximum
updates compute. -/
theorem calcViewBox_zero_seeded_box (segments : List (List vector)) (opts : Options) :
    calcViewBox segments opts =
        ⟨fl64 (lowest (xCoords segments) - fl64 (fl64 (3 / 2 * opts.Thickness) / 2)),
         fl64 (lowest (yCoords segments) - fl64 (fl64 (3 / 2 * opts.Thickness) / 2)),
         fl64 (fl64 (highest (xCoords segments) + fl64 (fl64 (3 / 2 * opts.Thickness) / 2))
           - fl64 (lowest (xCoords segments) - fl64 (fl64 (3 / 2 * opts.Thickness) / 2))),
         fl64 (fl64 (highest (yCoords segments) + fl64 (fl64 (3 / 2 * opts.Thickness) / 2))
           - fl64 (lowest (yCoords segments) - fl64 (fl64 (3 / 2 * opts.Thickness) / 2)))⟩ ∧
      IsLeast (xSet segments) (lowest (xCoords segments)) ∧
      IsGreatest (xSet segments) (highest (xCoords segments)) ∧
      IsLeast (ySet segments) (lowest (yCoords segments)) ∧
      IsGreatest (ySet segments) (highest (yCoords segments)) ∧
      scan segments
        = segments.foldl (fun b points => points.foldl visitBoth b) ⟨0, 0, 0, 0⟩ := by
  refine ⟨calcViewBox_eq segments opts, lowest_isLeast segments,
    highest_isGreatest segments, lowest_isLeast_y segments,
    highest_isGreatest_y segments, ?_⟩
  rw [scan_flatten, ← List.foldl_flatten]
  exact (foldl_visit segments.flatten ⟨0, 0, 0, 0⟩ le_rfl le_rfl).1

/-- C3: for a non-empty segment set and a positive thickness the viewport
contains the origin: `view.x ≤ 0 ≤ view.x + view.w` and
`view.y ≤ 0 ≤ view.y + view.h`, also when no point is at the origin. -/
theorem calcViewBox_contains_origin (segments : List (List vector)) (opts : Options)
    (_hne : segments ≠ []) (ht : 0 < opts.Thickness) :
    (calcViewBox segments opts).x ≤ 0 ∧
      0 ≤ (calcViewBox segments opts).x + (calcViewBox segments opts).w ∧
      (calcViewBox segments opts).y ≤ 0 ∧
      0 ≤ (calcViewBox segments opts).y + (calcViewBox segments opts).h := by
  have h1 := (lowest_isLeast segments).2 (Or.inl rfl)
  have h2 := (highest_isGreatest segments).2 (Or.inl rfl)
  have h3 := (lowest_isLeast_y segments).2 (Or.inl rfl)
  have h4 := (highest_isGreatest_y segments).2 (Or.inl rfl)
  have hpad := pad_nonneg opts ht.le
  obtain ⟨a1, a2, _⟩ := padded_range _ _ _ h1 h2 hpad (pad_rounded opts)
  obtain ⟨b1, b2, _⟩ := padded_range _ _ _ h3 h4 hpad (pad_rounded opts)
  rw [calcViewBox_eq]
  exact ⟨a1, a2, b1, b2⟩

/-- C3, at the segment `(5,3) (10,1)`, whose points all have positive
coordinates, with thickness 1. -/
theorem calcViewBox_contains_origin_witness :
    (calcViewBox [[⟨5, 3⟩, ⟨10, 1⟩]] ⟨0, 1, "black", 2⟩).x ≤ 0 ∧
      0 ≤ (calcViewBox [[⟨5, 3⟩, ⟨10, 1⟩]] ⟨0, 1, "black", 2⟩).x
        + (calcViewBox [[⟨5, 3⟩, ⟨10, 1⟩]] ⟨0, 1, "black", 2⟩).w ∧
      (calcViewBox [[⟨5, 3⟩, ⟨10, 1⟩]] ⟨0, 1, "black", 2⟩).y ≤ 0 ∧
      0 ≤ (calcViewBox [[⟨5, 3⟩, ⟨10, 1⟩]] ⟨0, 1, "black", 2⟩).y
        + (calcViewBox [[⟨5, 3⟩, ⟨10, 1⟩]] ⟨0, 1, "black", 2⟩).h :=
  calcViewBox_contains_origin [[⟨5, 3⟩, ⟨10, 1⟩]] ⟨0, 1, "black", 2⟩
    (by simp) (by norm_num)

/-! ## Lemmas on digits and trimming -/

theorem digitChar_isDigit (k : Nat) (hk : k < 10) : (Nat.digitChar k).isDigit = true := by
  interval_cases k <;> rfl

theorem toDigitsCore_isDigit (fuel : Nat) :
    ∀ (n : Nat) (ds : List Char), (∀ c ∈ ds, c.isDigit = true) →
      ∀ c ∈ Nat.toDigitsCore 10 fuel n ds, c.isDigit = true := by
  induction fuel with
  | zero => intro n ds hds c hc; exact hds c (by simpa [Nat.toDigitsCore] using hc)
  | succ fuel ih =>
    intro n ds hds c hc
    have hcons : ∀ c ∈ Nat.digitChar (n % 10) :: ds, c.isDigit = true := by
      intro c hc
      rcases List.mem_cons.mp hc with rfl | h
      · exact digitChar_isDigit _ (Nat.mod_lt _ (by norm_num))
      · exact hds c h
    simp only [Nat.toDigitsCore] at hc
    split at hc
    · exact hcons c hc
    · exact ih _ _ hcons c hc

theorem repr_isDigit (n : Nat) : ∀ c ∈ (Nat.repr n).data, c.isDigit = true := by
  intro c hc
  exact toDigitsCore_isDigit _ n [] (fun c h => absurd h (List.not_mem_nil _)) c hc

theorem fixedDigits_isDigit (w : Nat) :
    ∀ n : Nat, ∀ c ∈ fixedDigits w n, c.isDigit = true := by
  induction w with
  | zero => intro n c hc; exact absurd hc (List.not_mem_nil _)
  | succ w ih =>
    intro n c hc
    simp only [fixedDigits, List.mem_append, List.mem_singleton] at hc
    rcases hc with h | rfl
    · exact ih _ c h
    · exact digitChar_isDigit _ (Nat.mod_lt _ (by norm_num))

theorem fixedDigits_length (w : Nat) : ∀ n : Nat, (fixedDigits w n).length = w := by
  induction w with
  | zero => intro n; rfl
  | succ w ih => intro n; simp [fixedDigits, ih]

theorem rdropWhile_append_replicate (p : Char → Bool) (a : Char) (ha : p a = true)
    (l : List Char) (k : Nat) :
    (l ++ List.replicate k a).rdropWhile p = l.rdropWhile p := by
  induction k with
  | zero => simp
  | succ k ih =>
    rw [List.replicate_succ', ← List.append_assoc, List.rdropWhile_concat_pos _ _ _ ha, ih]

theorem rdropWhile_decompose (a : Char) (l : List Char) :
    ∃ k : Nat, l = l.rdropWhile (fun c => decide (c = a)) ++ List.replicate k a := by
  induction l using List.reverseRecOn with
  | nil => exact ⟨0, by simp⟩
  | append_singleton l x ih =>
    by_cases hx : x = a
    · obtain ⟨k, hk⟩ := ih
      refine ⟨k + 1, ?_⟩
      rw [List.rdropWhile_concat_pos _ _ _ (by simpa using hx), List.replicate_succ',
        ← List.append_assoc, ← hk, hx]
    · refine ⟨0, ?_⟩
      rw [List.rdropWhile_concat_neg _ _ _ (by simpa using hx)]
      simp

theorem rdropWhile_getLast_ne (a : Char) (l : List Char) :
    (l.rdropWhile (fun c => decide (c = a))).getLast? ≠ some a := by
  intro h
  have hne : l.rdropWhile (fun c => decide (c = a)) ≠ [] := by
    intro e; rw [e] at h; simp at h
  have := List.rdropWhile_last_not (fun c => decide (c = a)) l hne
  rw [List.getLast?_eq_getLast _ hne] at h
  simp only [Option.some.injEq] at h
  simp [h] at this

theorem rdropWhile_self_of_getLast (p : Char → Bool) (l : List Char)
    (h : ∀ c, l.getLast? = some c → p c = false) : l.rdropWhile p = l := by
  rw [List.rdropWhile_eq_self_iff]
  intro hl
  have := h _ (List.getLast?_eq_getLast _ hl)
  simp [this]

theorem TrimRight_data (s cutset : String) (a : Char) (h : cutset.data = [a]) :
    (TrimRight s cutset).data = s.data.rdropWhile (fun c => decide (c = a)) := by
  simp [TrimRight, h]

theorem getLast?_append_of_ne_nil (l r : List Char) (hr : r ≠ []) :
    (l ++ r).getLast? = r.getLast? := by
  rw [List.getLast?_append]
  cases h : r.getLast? with
  | none => exact absurd (List.getLast?_eq_none_iff.mp h) hr
  | some c => rfl

theorem not_dot_of_isDigit (c : Char) (h : c.isDigit = true) : c ≠ '.' := by
  rintro rfl
  exact absurd h (by decide)

/-- Trimming the zeros and then the points at the right end of
`front ++ "." ++ frac`, where neither `front` nor `frac` holds a point: the
zeros at the end of `frac` go, and the point goes when nothing of `frac` is
left. -/
theorem trim_fixed_point (front frac : List Char)
    (hfront : ∀ c ∈ front, c ≠ '.') (hfrac : ∀ c ∈ frac, c ≠ '.') :
    ((front ++ '.' :: frac).rdropWhile (fun c => decide (c = '0'))).rdropWhile
        (fun c => decide (c = '.'))
      = if frac.rdropWhile (fun c => decide (c = '0')) = [] then front
        else front ++ '.' :: frac.rdropWhile (fun c => decide (c = '0')) := by
  obtain ⟨k, hk⟩ := rdropWhile_decompose '0' frac
  have hlast := rdropWhile_getLast_ne '0' frac
  have hsub : ∀ c ∈ frac.rdropWhile (fun c => decide (c = '0')), c ≠ '.' := by
    intro c hc
    exact hfrac c (by rw [hk]; exact List.mem_append_left _ hc)
  generalize frac.rdropWhile (fun c => decide (c = '0')) = kept at hk hlast hsub
  have e1 : (front ++ '.' :: frac).rdropWhile (fun c => decide (c = '0'))
      = front ++ '.' :: kept := by
    have : front ++ '.' :: frac = (front ++ '.' :: kept) ++ List.replicate k '0' := by
      rw [hk]; simp
    rw [this, rdropWhile_append_replicate _ '0' (by simp)]
    apply rdropWhile_self_of_getLast
    intro c hc
    rw [getLast?_append_of_ne_nil _ _ (List.cons_ne_nil _ _)] at hc
    by_cases hkept : kept = []
    · subst hkept
      simp only [List.getLast?_singleton, Option.some.injEq] at hc
      subst hc
      decide
    · rw [show '.' :: kept = ['.'] ++ kept from rfl,
        getLast?_append_of_ne_nil _ _ hkept] at hc
      have : c ≠ '0' := by rintro rfl; exact hlast hc
      simpa using this
  rw [e1]
  by_cases hkept : kept = []
  · subst hkept
    rw [if_pos rfl, show front ++ ['.'] = front ++ ['.'] from rfl,
      List.rdropWhile_concat_pos _ _ _ (by simp)]
    apply rdropWhile_self_of_getLast
    intro c hc
    have := hfront c (List.mem_of_getLast?_eq_some hc)
    simpa using this
  · rw [if_neg hkept]
    apply rdropWhile_self_of_getLast
    intro c hc
    rw [show front ++ '.' :: kept = (front ++ ['.']) ++ kept by simp,
      getLast?_append_of_ne_nil _ _ hkept] at hc
    have := hsub c (List.mem_of_getLast?_eq_some hc)
    simpa using this

theorem signPart_no_dot (f : ℚ) : ∀ c ∈ (signPart f).data, c ≠ '.' := by
  intro c hc
  unfold signPart at hc
  split at hc
  · simp only [List.mem_singleton] at hc
    subst hc
    decide
  · exact absurd hc (List.not_mem_nil _)

theorem front_no_dot (f : ℚ) (p : Nat) :
    ∀ c ∈ (signPart f ++ wholePart f p).data, c ≠ '.' := by
  intro c hc
  rw [String.data_append, List.mem_append] at hc
  rcases hc with h | h
  · exact signPart_no_dot f c h
  · exact not_dot_of_isDigit c (repr_isDigit _ c h)

theorem fracPart_no_dot (f : ℚ) (p : Nat) : ∀ c ∈ fracPart f p, c ≠ '.' :=
  fun c hc => not_dot_of_isDigit c (fixedDigits_isDigit _ _ c hc)

theorem FormatFloat_data (f : ℚ) (p : Nat) (hp : 1 ≤ p) :
    (FormatFloat f p).data = (signPart f ++ wholePart f p).data ++ '.' :: fracPart f p := by
  unfold FormatFloat
  rw [if_pos (show 0 < p from hp)]
  simp [String.data_append]

theorem precise_data (f : ℚ) (p : Nat) (hp : 1 ≤ p) :
    (precise f p).data
      = if (fracPart f p).rdropWhile (fun c => decide (c = '0')) = []
        then (signPart f ++ wholePart f p).data
        else (signPart f ++ wholePart f p).data
          ++ '.' :: (fracPart f p).rdropWhile (fun c => decide (c = '0')) := by
  unfold precise
  simp only
  rw [TrimRight_data _ "." '.' rfl, TrimRight_data _ "0" '0' rfl, FormatFloat_data f p hp]
  exact trim_fixed_point _ _ (front_no_dot f p) (fracPart_no_dot f p)

/-! ## The formatter -/

/-- C4 (fails at precision 0): `precise 10 0` is `"1"`, which denotes 1, while
10 rounded to 0 decimal places is 10 and its untrimmed rendering `"10"`
denotes 10; `precise 0 0` is the empty string, which denotes no number. -/
theorem precise_zero_precision_changes_value :
    FormatFloat 10 0 = "10" ∧ decimalValue (FormatFloat 10 0) = some 10 ∧
      roundTo 10 0 = 10 ∧
      precise 10 0 = "1" ∧ decimalValue (precise 10 0) = some 1 ∧
      decimalValue (precise 0 0) = none := by
  decide!

/-- C5 (fails): at precision 0 the trimming removes the trailing zeros of
the integer string: `"0"` becomes the empty string, `"10"` and `"100"` become
`"1"`, and `"-20"` becomes `"-2"`. -/
theorem precise_zero_precision_trims_integer :
    FormatFloat 0 0 = "0" ∧ precise 0 0 = "" ∧
      FormatFloat 10 0 = "10" ∧ precise 10 0 = "1" ∧
      FormatFloat 100 0 = "100" ∧ precise 100 0 = "1" ∧
      FormatFloat (-20) 0 = "-20" ∧ precise (-20) 0 = "-2" := by
  decide!

/-- C6: for a precision `p ≥ 1`, `precise v p` is the fixed-point string of
`v` (sign, integer digits, a point and exactly `p` fractional digits) with the
trailing zeros `0...0` of the fractional part removed, and with the point
removed as well exactly when all fractional digits are zeros; sign and integer
digits are unchanged, and the result ends neither in a point nor, when it has a
point, in a zero. -/
theorem precise_trims_fraction (f : ℚ) (p : Nat) (hp : 1 ≤ p) :
    ∃ (kept : List Char) (k : Nat),
      FormatFloat f p
          = signPart f ++ wholePart f p ++ "." ++ String.mk (fracPart f p) ∧
        (fracPart f p).length = p ∧
        (∀ c ∈ (wholePart f p).data ++ fracPart f p, c.isDigit = true) ∧
        fracPart f p = kept ++ List.replicate k '0' ∧
        kept.getLast? ≠ some '0' ∧
        (kept = [] ↔ ∀ c ∈ fracPart f p, c = '0') ∧
        precise f p
          = signPart f ++ wholePart f p
              ++ (if kept = [] then "" else "." ++ String.mk kept) ∧
        (precise f p).data.getLast? ≠ some '.' ∧
        ('.' ∈ (precise f p).data → (precise f p).data.getLast? ≠ some '0') := by
  obtain ⟨k, hk⟩ := rdropWhile_decompose '0' (fracPart f p)
  have hlast := rdropWhile_getLast_ne '0' (fracPart f p)
  have hdata := precise_data f p hp
  have hsub : ∀ c ∈ (fracPart f p).rdropWhile (fun c => decide (c = '0')), c ≠ '.' := by
    intro c hc
    exact fracPart_no_dot f p c (by rw [hk]; exact List.mem_append_left _ hc)
  generalize (fracPart f p).rdropWhile (fun c => decide (c = '0')) = kept
    at hk hlast hdata hsub
  refine ⟨kept, k, ?_, fixedDigits_length _ _, ?_, hk, hlast, ?_, ?_, ?_, ?_⟩
  · unfold FormatFloat
    rw [if_pos (show 0 < p from hp)]
  · intro c hc
    rcases List.mem_append.mp hc with h | h
    · exact repr_isDigit _ c h
    · exact fixedDigits_isDigit _ _ c h
  · constructor
    · rintro rfl c hc
      rw [hk, List.nil_append] at hc
      exact List.eq_of_mem_replicate hc
    · intro hall
      by_contra hne
      obtain ⟨c, hc⟩ := Option.ne_none_iff_exists'.mp
        (fun h => hne (List.getLast?_eq_none_iff.mp h))
      have hmem : c ∈ fracPart f p := by
        rw [hk]; exact List.mem_append_left _ (List.mem_of_getLast?_eq_some hc)
      rw [hall c hmem] at hc
      exact hlast hc
  · apply String.ext
    rw [hdata]
    by_cases hkept : kept = []
    · simp [hkept, String.data_append]
    · simp [hkept, String.data_append]
  · rw [hdata]
    intro h
    by_cases hkept : kept = []
    · rw [if_pos hkept] at h
      exact front_no_dot f p _ (List.mem_of_getLast?_eq_some h) rfl
    · rw [if_neg hkept, show (signPart f ++ wholePart f p).data ++ '.' :: kept
          = ((signPart f ++ wholePart f p).data ++ ['.']) ++ kept by simp,
        getLast?_append_of_ne_nil _ _ hkept] at h
      exact hsub _ (List.mem_of_getLast?_eq_some h) rfl
  · rw [hdata]
    intro hdot h
    by_cases hkept : kept = []
    · rw [if_pos hkept] at hdot
      exact front_no_dot f p _ hdot rfl
    · rw [if_neg hkept, show (signPart f ++ wholePart f p).data ++ '.' :: kept
          = ((signPart f ++ wholePart f p).data ++ ['.']) ++ kept by simp,
        getLast?_append_of_ne_nil _ _ hkept] at h
      exact hlast h

/-- C6, at the value 10 and precision 2: the rendering `10.00` loses its two
fractional zeros and its point, and keeps the zero of the integer part. -/
theorem precise_trims_fraction_witness :
    precise 10 2 = "10" ∧
    ∃ (kept : List Char) (k : Nat),
      FormatFloat 10 2
          = signPart 10 ++ wholePart 10 2 ++ "." ++ String.mk (fracPart 10 2) ∧
        (fracPart 10 2).length = 2 ∧
        (∀ c ∈ (wholePart 10 2).data ++ fracPart 10 2, c.isDigit = true) ∧
        fracPart 10 2 = kept ++ List.replicate k '0' ∧
        kept.getLast? ≠ some '0' ∧
        (kept = [] ↔ ∀ c ∈ fracPart 10 2, c = '0') ∧
        precise 10 2
          = signPart 10 ++ wholePart 10 2
              ++ (if kept = [] then "" else "." ++ String.mk kept) ∧
        (precise 10 2).data.getLast? ≠ some '.' ∧
        ('.' ∈ (precise 10 2).data → (precise 10 2).data.getLast? ≠ some '0') :=
  ⟨by decide!, precise_trims_fraction 10 2 (by decide)⟩

/-- C7: the documented examples: `precise 2.5 2 = "2.5"`,
`precise 3.0 2 = "3"` and `precise 3.0 0 = "3"`. -/
theorem precise_examples :
    precise (5 / 2) 2 = "2.5" ∧ precise 3 2 = "3" ∧ precise 3 0 = "3" := by
  decide!


/-! ## The document -/

theorem foldl_append_buf {α : Type} (g : α → String) (l : List α) :
    ∀ buf : String,
      l.foldl (fun b a => b ++ g a) buf = buf ++ l.foldl (fun b a => b ++ g a) "" := by
  induction l with
  | nil => intro buf; simp
  | cons a rest ih =>
    intro buf
    simp only [List.foldl_cons]
    rw [ih (buf ++ g a), ih ("" ++ g a), String.empty_append, String.append_assoc]

theorem foldl_writePoint (opts : Options) (points : List vector) (buf : String) :
    points.foldl (writePoint opts) buf = buf ++ points.foldl (writePoint opts) "" := by
  have h : writePoint opts = fun b pt => b ++ writePoint opts "" pt := by
    funext b pt
    simp only [writePoint, String.empty_append]
  rw [h]
  exact foldl_append_buf (fun pt => writePoint opts "" pt) points buf

theorem writeSegment_buf (opts : Options) (buf : String) (points : List vector) :
    writeSegment opts buf points = buf ++ writeSegment opts "" points := by
  simp only [writeSegment]
  rw [foldl_writePoint opts points (buf ++ "<polyline points='"),
    foldl_writePoint opts points ("" ++ "<polyline points='")]
  simp only [String.append_assoc, String.empty_append]

theorem foldl_writeSegment (opts : Options) (segments : List (List vector)) :
    ∀ buf : String,
      segments.foldl (writeSegment opts) buf = buf ++ polylines opts segments := by
  have h : writeSegment opts = fun b points => b ++ writeSegment opts "" points := by
    funext b points
    exact writeSegment_buf opts b points
  intro buf
  unfold polylines
  rw [h]
  exact foldl_append_buf (fun points => writeSegment opts "" points) segments buf

theorem SVG_eq (stepFactor : ℚ) (s : System) (opts : Options) :
    SVG stepFactor s opts
      = header (calcViewBox (s.render (intAdd s.min opts.Depth)) opts)
          (fl64 (fl64
            (opts.Thickness * (calcViewBox (s.render (intAdd s.min opts.Depth)) opts).w)
            / stepFactor)) opts
        ++ polylines opts (s.render (intAdd s.min opts.Depth)) ++ "</svg>" := by
  simp only [SVG]
  rw [foldl_writeSegment, String.empty_append]

theorem header_eq (view : viewBox) (thickness : ℚ) (opts : Options) :
    header view thickness opts
      = rootTag (precise view.x opts.Precision) (precise view.y opts.Precision)
          (precise view.w opts.Precision) (precise view.h opts.Precision)
        ++ styleRule (precise thickness opts.Precision) opts.Color := by
  simp only [header, rootTag, styleRule, String.append_assoc]
  rfl

/-- C8 as stated fails: whatever positive binary64 value the constant
`stepFactor` has, some segment set and positive thickness make half of the
declared stroke width at least as large as the pad. -/
theorem pad_not_above_half_stroke :
    ¬ ∃ K : ℚ, 0 < K ∧ fl64 K = K ∧ ∀ (segments : List (List vector)) (opts : Options),
        0 < opts.Thickness →
          fl64 (fl64 (opts.Thickness * (calcViewBox segments opts).w) / K) / 2
            < fl64 (fl64 (paddingFactor * opts.Thickness) / 2) := by
  rintro ⟨K, hK, hKr, h⟩
  have h1 := h [[⟨0, 0⟩, ⟨2 * K, 0⟩]] ⟨0, 1, "black", 2⟩ (by norm_num)
  have h2K : fl64 (2 * K) = 2 * K := fl64_double K hKr
  have hpad : pad ⟨0, 1, "black", 2⟩ = 3 / 4 := by decide!
  have hpad' : fl64 (fl64 (paddingFactor * (1 : ℚ)) / 2) = 3 / 4 := by decide!
  have hlow : fl64 (0 - 3 / 4) = -(3 / 4) := by decide!
  have htwo : fl64 2 = 2 := by decide!
  have hw : 2 * K ≤ (calcViewBox [[⟨0, 0⟩, ⟨2 * K, 0⟩]] ⟨0, 1, "black", 2⟩).w := by
    rw [calcViewBox_eq]
    have hmax : max (0 : ℚ) (2 * K) = 2 * K := max_eq_right (by linarith)
    have hmin : min (0 : ℚ) (2 * K) = 0 := min_eq_left (by linarith)
    simp only [xCoords, lowest, highest, List.flatten, List.map, List.foldl,
      List.append_nil, max_self, min_self, hmax, hmin, hpad, hlow]
    apply le_fl64_of_le _ _ h2K
    have := le_fl64_of_le (2 * K + 3 / 4) (2 * K) h2K (by linarith)
    linarith
  generalize (calcViewBox [[⟨0, 0⟩, ⟨2 * K, 0⟩]] ⟨0, 1, "black", 2⟩).w = w at h1 hw
  simp only [one_mul, hpad'] at h1
  have hs : 2 ≤ fl64 (fl64 w / K) := by
    apply le_fl64_of_le _ _ htwo
    rw [le_div_iff₀ hK]
    exact le_fl64_of_le _ _ h2K hw
  linarith

/-- C8, amended: for every segment set and every positive binary64
thickness, the pad `1.5 * thickness / 2` that `calcViewBox` subtracts from the
minima and adds to the maxima (in binary64 arithmetic) is larger than half of
the configured thickness, so that the viewport is wider and higher than the
configured thickness. -/
theorem pad_above_half_thickness (segments : List (List vector)) (opts : Options)
    (ht : 0 < opts.Thickness) (hr : fl64 opts.Thickness = opts.Thickness) :
    opts.Thickness / 2 < fl64 (fl64 (paddingFactor * opts.Thickness) / 2) ∧
      (calcViewBox segments opts).x
        = fl64 (lowest (xCoords segments)
            - fl64 (fl64 (paddingFactor * opts.Thickness) / 2)) ∧
      (calcViewBox segments opts).y
        = fl64 (lowest (yCoords segments)
            - fl64 (fl64 (paddingFactor * opts.Thickness) / 2)) ∧
      (calcViewBox segments opts).w
        = fl64 (fl64 (highest (xCoords segments)
              + fl64 (fl64 (paddingFactor * opts.Thickness) / 2))
            - (calcViewBox segments opts).x) ∧
      (calcViewBox segments opts).h
        = fl64 (fl64 (highest (yCoords segments)
              + fl64 (fl64 (paddingFactor * opts.Thickness) / 2))
            - (calcViewBox segments opts).y) ∧
      opts.Thickness < (calcViewBox segments opts).w ∧
      opts.Thickness < (calcViewBox segments opts).h := by
  have hhalf := half_lt_pad opts.Thickness ht hr
  have h1 := (lowest_isLeast segments).2 (Or.inl rfl)
  have h2 := (highest_isGreatest segments).2 (Or.inl rfl)
  have h3 := (lowest_isLeast_y segments).2 (Or.inl rfl)
  have h4 := (highest_isGreatest_y segments).2 (Or.inl rfl)
  have hpad := pad_nonneg opts ht.le
  obtain ⟨_, _, a3⟩ := padded_range _ _ _ h1 h2 hpad (pad_rounded opts)
  obtain ⟨_, _, b3⟩ := padded_range _ _ _ h3 h4 hpad (pad_rounded opts)
  rw [calcViewBox_eq]
  simp only [pad, paddingFactor] at hhalf a3 b3 ⊢
  exact ⟨hhalf, trivial, trivial, trivial, trivial, by linarith, by linarith⟩

/-- C8 amended, at the segment `(0,0) (10,0)` with thickness 1: the pad 0.75
exceeds 0.5, and the width 11.5 and the height 1.5 exceed 1. -/
theorem pad_above_half_thickness_witness :
    (1 : ℚ) / 2 < fl64 (fl64 (paddingFactor * 1) / 2) ∧
      (1 : ℚ) < (calcViewBox [[⟨0, 0⟩, ⟨10, 0⟩]] ⟨0, 1, "black", 2⟩).w ∧
      (1 : ℚ) < (calcViewBox [[⟨0, 0⟩, ⟨10, 0⟩]] ⟨0, 1, "black", 2⟩).h ∧
      calcViewBox [[⟨0, 0⟩, ⟨10, 0⟩]] ⟨0, 1, "black", 2⟩ = ⟨-3 / 4, -3 / 4, 23 / 2, 3 / 2⟩ :=
  ⟨(pad_above_half_thickness [[⟨0, 0⟩, ⟨10, 0⟩]] ⟨0, 1, "black", 2⟩
      (by norm_num) (by decide!)).1,
    (pad_above_half_thickness [[⟨0, 0⟩, ⟨10, 0⟩]] ⟨0, 1, "black", 2⟩
      (by norm_num) (by decide!)).2.2.2.2.2.1,
    (pad_above_half_thickness [[⟨0, 0⟩, ⟨10, 0⟩]] ⟨0, 1, "black", 2⟩
      (by norm_num) (by decide!)).2.2.2.2.2.2,
    by decide!⟩

/-- C9 as stated fails: for the segment `(0,0) (10,0)` and the binary64
thickness nearest to 0.1, the width of the viewport is not
`(xMax0 - xMin0) + 1.5 * t`, and with `stepFactor = 10` the stroke width the
program computes is not `t * ((xMax0 - xMin0) + 1.5 * t) / stepFactor`: the two
are printed as `0.10149999999999999` and `0.10150000000000001` with 17
decimals. With thickness 1 and `stepFactor = 20` the program prints `0.57`
where the exact quotient `1 * 11.5 / 20` is printed as `0.58`. -/
theorem SVG_stroke_width_not_exact :
    fl64 (3602879701896397 / 36028797018963968) = 3602879701896397 / 36028797018963968 ∧
      (calcViewBox [[⟨0, 0⟩, ⟨10, 0⟩]]
          ⟨0, 3602879701896397 / 36028797018963968, "black", 2⟩).w
        ≠ (10 - 0) + 3 / 2 * (3602879701896397 / 36028797018963968) ∧
      fl64 (fl64 (3602879701896397 / 36028797018963968
            * (calcViewBox [[⟨0, 0⟩, ⟨10, 0⟩]]
                ⟨0, 3602879701896397 / 36028797018963968, "black", 2⟩).w) / 10)
        ≠ 3602879701896397 / 36028797018963968
            * ((10 - 0) + 3 / 2 * (3602879701896397 / 36028797018963968)) / 10 ∧
      precise (fl64 (fl64 (3602879701896397 / 36028797018963968
            * (calcViewBox [[⟨0, 0⟩, ⟨10, 0⟩]]
                ⟨0, 3602879701896397 / 36028797018963968, "black", 2⟩).w) / 10)) 17
        = "0.10149999999999999" ∧
      precise (3602879701896397 / 36028797018963968
            * ((10 - 0) + 3 / 2 * (3602879701896397 / 36028797018963968)) / 10) 17
        = "0.10150000000000001" ∧
      precise (fl64 (fl64 (1 * (calcViewBox [[⟨0, 0⟩, ⟨10, 0⟩]] ⟨0, 1, "black", 2⟩).w) / 20)) 2
        = "0.57" ∧
      precise (1 * ((10 - 0) + 3 / 2 * 1) / 20) 2 = "0.58" := by
  decide!

/-- C9, amended: the stroke width written into the style rule is
`precise v precision`, where `v` is `thickness * view.w / stepFactor` in
binary64 arithmetic (the product rounded, then the quotient rounded) and `view`
is the viewport `calcViewBox` computes from the rendered segments and the same
options; `view.w` is `(xMax0 + pad) - (xMin0 - pad)` with `pad = 1.5 * t / 2`,
each operation rounded, so that `v` is
`t * ((xMax0 - xMin0) + 1.5 * t) / stepFactor` when none of these operations
rounds. -/
theorem SVG_stroke_width (stepFactor : ℚ) (s : System) (opts : Options) :
    SVG stepFactor s opts
        = rootTag
            (precise (calcViewBox (s.render (intAdd s.min opts.Depth)) opts).x
              opts.Precision)
            (precise (calcViewBox (s.render (intAdd s.min opts.Depth)) opts).y
              opts.Precision)
            (precise (calcViewBox (s.render (intAdd s.min opts.Depth)) opts).w
              opts.Precision)
            (precise (calcViewBox (s.render (intAdd s.min opts.Depth)) opts).h
              opts.Precision)
          ++ "<defs><style>polyline \x7b fill: none; stroke-linecap: square; "
          ++ "stroke-width: "
          ++ precise
              (fl64 (fl64
                (opts.Thickness * (calcViewBox (s.render (intAdd s.min opts.Depth)) opts).w)
                / stepFactor)) opts.Precision
          ++ "; stroke: " ++ opts.Color ++ "; \x7d</style></defs>"
          ++ polylines opts (s.render (intAdd s.min opts.Depth)) ++ "</svg>" ∧
      (calcViewBox (s.render (intAdd s.min opts.Depth)) opts).w
        = fl64 (fl64 (highest (xCoords (s.render (intAdd s.min opts.Depth)))
              + fl64 (fl64 (3 / 2 * opts.Thickness) / 2))
            - fl64 (lowest (xCoords (s.render (intAdd s.min opts.Depth)))
              - fl64 (fl64 (3 / 2 * opts.Thickness) / 2))) ∧
      (fl64 (3 / 2 * opts.Thickness) = 3 / 2 * opts.Thickness →
        fl64 (3 / 2 * opts.Thickness / 2) = 3 / 2 * opts.Thickness / 2 →
        fl64 (highest (xCoords (s.render (intAdd s.min opts.Depth)))
            + 3 / 2 * opts.Thickness / 2)
          = highest (xCoords (s.render (intAdd s.min opts.Depth)))
            + 3 / 2 * opts.Thickness / 2 →
        fl64 (lowest (xCoords (s.render (intAdd s.min opts.Depth)))
            - 3 / 2 * opts.Thickness / 2)
          = lowest (xCoords (s.render (intAdd s.min opts.Depth)))
            - 3 / 2 * opts.Thickness / 2 →
        fl64 ((highest (xCoords (s.render (intAdd s.min opts.Depth)))
              - lowest (xCoords (s.render (intAdd s.min opts.Depth))))
            + 3 / 2 * opts.Thickness)
          = (highest (xCoords (s.render (intAdd s.min opts.Depth)))
              - lowest (xCoords (s.render (intAdd s.min opts.Depth))))
            + 3 / 2 * opts.Thickness →
        fl64 (opts.Thickness
            * ((highest (xCoords (s.render (intAdd s.min opts.Depth)))
                - lowest (xCoords (s.render (intAdd s.min opts.Depth))))
              + 3 / 2 * opts.Thickness))
          = opts.Thickness
            * ((highest (xCoords (s.render (intAdd s.min opts.Depth)))
                - lowest (xCoords (s.render (intAdd s.min opts.Depth))))
              + 3 / 2 * opts.Thickness) →
        fl64 (opts.Thickness
            * ((highest (xCoords (s.render (intAdd s.min opts.Depth)))
                - lowest (xCoords (s.render (intAdd s.min opts.Depth))))
              + 3 / 2 * opts.Thickness) / stepFactor)
          = opts.Thickness
            * ((highest (xCoords (s.render (intAdd s.min opts.Depth)))
                - lowest (xCoords (s.render (intAdd s.min opts.Depth))))
              + 3 / 2 * opts.Thickness) / stepFactor →
        fl64 (fl64
            (opts.Thickness * (calcViewBox (s.render (intAdd s.min opts.Depth)) opts).w)
            / stepFactor)
          = opts.Thickness
            * ((highest (xCoords (s.render (intAdd s.min opts.Depth)))
                - lowest (xCoords (s.render (intAdd s.min opts.Depth))))
              + 3 / 2 * opts.Thickness) / stepFactor) := by
  refine ⟨?_, ?_, ?_⟩
  · rw [SVG_eq]
    simp only [header, rootTag, String.append_assoc]
  · rw [calcViewBox_eq]
    rfl
  · intro e1 e2 e3 e4 e5 e6 e7
    rw [calcViewBox_eq]
    simp only [pad]
    have ew : (highest (xCoords (s.render (intAdd s.min opts.Depth)))
          + 3 / 2 * opts.Thickness / 2)
        - (lowest (xCoords (s.render (intAdd s.min opts.Depth)))
          - 3 / 2 * opts.Thickness / 2)
        = (highest (xCoords (s.render (intAdd s.min opts.Depth)))
            - lowest (xCoords (s.render (intAdd s.min opts.Depth))))
          + 3 / 2 * opts.Thickness := by ring
    rw [e1, e2, e3, e4, ew, e5, e6, e7]

/-- C9 amended, at a source that gives the segment `(0,0) (10,0)`, with
thickness 1 and `stepFactor = 2`: no operation rounds, and the stroke width
is `1 * ((10 - 0) + 1.5 * 1) / 2 = 5.75`. -/
theorem SVG_stroke_width_witness :
    fl64 (fl64 ((1 : ℚ)
        * (calcViewBox ((⟨0, fun _ => [[⟨0, 0⟩, ⟨10, 0⟩]]⟩ : System).render (intAdd 0 0))
            ⟨0, 1, "black", 2⟩).w) / 2)
      = 1 * ((highest (xCoords
              ((⟨0, fun _ => [[⟨0, 0⟩, ⟨10, 0⟩]]⟩ : System).render (intAdd 0 0)))
            - lowest (xCoords
              ((⟨0, fun _ => [[⟨0, 0⟩, ⟨10, 0⟩]]⟩ : System).render (intAdd 0 0))))
          + 3 / 2 * 1) / 2 :=
  (SVG_stroke_width 2 ⟨0, fun _ => [[⟨0, 0⟩, ⟨10, 0⟩]]⟩ ⟨0, 1, "black", 2⟩).2.2
    (by decide!) (by decide!) (by decide!) (by decide!) (by decide!) (by decide!)
    (by decide!)

/-- C10: the document starts with the root tag
`<svg xmlns=... viewBox='X Y W H'>`, where `X Y W H` are `precise` of
`view.x`, `view.y`, `view.w`, `view.h` at the configured precision, in that
order and separated by single spaces; the style rule follows, with the
formatted stroke width and the color string copied unchanged. -/
theorem SVG_starts_with_root_and_style (stepFactor : ℚ) (s : System) (opts : Options) :
    SVG stepFactor s opts
        = rootTag
            (precise (calcViewBox (s.render (intAdd s.min opts.Depth)) opts).x
              opts.Precision)
            (precise (calcViewBox (s.render (intAdd s.min opts.Depth)) opts).y
              opts.Precision)
            (precise (calcViewBox (s.render (intAdd s.min opts.Depth)) opts).w
              opts.Precision)
            (precise (calcViewBox (s.render (intAdd s.min opts.Depth)) opts).h
              opts.Precision)
          ++ styleRule
              (precise
                (fl64 (fl64
                  (opts.Thickness
                    * (calcViewBox (s.render (intAdd s.min opts.Depth)) opts).w)
                  / stepFactor)) opts.Precision)
              opts.Color
          ++ (polylines opts (s.render (intAdd s.min opts.Depth)) ++ "</svg>") ∧
      rootTag "X" "Y" "W" "H"
        = "<svg xmlns='http://www.w3.org/2000/svg' viewBox='X Y W H'>" ∧
      styleRule "T" "C"
        = "<defs><style>polyline \x7b fill: none; stroke-linecap: square; stroke-width: T; stroke: C; \x7d</style></defs>" := by
  refine ⟨?_, by decide, by decide⟩
  rw [SVG_eq, header_eq, String.append_assoc]

/-! ## Re-parsing the formatted number (precision at least 1) -/

theorem digitChar_value (d : Nat) (hd : d < 10) :
    (Nat.digitChar d).isDigit = true ∧ (Nat.digitChar d).toNat - 48 = d := by
  interval_cases d <;> exact ⟨rfl, rfl⟩

theorem digitsValue_concat (l : List Char) (d : Nat) (hd : d < 10) :
    digitsValue (l ++ [Nat.digitChar d]) = (digitsValue l).map (fun n => 10 * n + d) := by
  unfold digitsValue
  rw [List.foldl_append]
  simp only [List.foldl_cons, List.foldl_nil]
  cases h : List.foldl (fun acc c => acc.bind fun n =>
      if c.isDigit = true then some (10 * n + (c.toNat - 48)) else none) (some 0) l with
  | none => rfl
  | some n =>
    simp only [Option.bind, Option.map, (digitChar_value d hd).1, (digitChar_value d hd).2,
      if_true]

theorem digitsValue_fixedDigits (w : Nat) :
    ∀ m : Nat, digitsValue (fixedDigits w m) = some (m % 10 ^ w) := by
  induction w with
  | zero => intro m; simp [fixedDigits, digitsValue, Nat.mod_one]
  | succ w ih =>
    intro m
    simp only [fixedDigits]
    rw [digitsValue_concat _ _ (Nat.mod_lt _ (by norm_num)), ih]
    simp only [Option.map, Option.some.injEq]
    rw [pow_succ, mul_comm (10 ^ w) 10, Nat.mod_mul]
    omega

theorem toDigitsCore_append (fuel : Nat) :
    ∀ (n : Nat) (ds : List Char),
      Nat.toDigitsCore 10 fuel n ds = Nat.toDigitsCore 10 fuel n [] ++ ds := by
  induction fuel with
  | zero => intro n ds; simp [Nat.toDigitsCore]
  | succ fuel ih =>
    intro n ds
    simp only [Nat.toDigitsCore]
    split
    · simp
    · rw [ih _ (_ :: ds), ih _ [_]]
      simp

theorem digitsValue_toDigitsCore (fuel : Nat) :
    ∀ n : Nat, n < fuel → digitsValue (Nat.toDigitsCore 10 fuel n []) = some n := by
  induction fuel with
  | zero => intro n h; omega
  | succ fuel ih =>
    intro n h
    simp only [Nat.toDigitsCore]
    split
    · next h0 =>
      have := digitsValue_concat [] (n % 10) (Nat.mod_lt _ (by norm_num))
      simp only [List.nil_append] at this
      rw [this]
      simp only [digitsValue, List.foldl_nil, Option.map, Option.some.injEq]
      omega
    · next h0 =>
      rw [toDigitsCore_append, digitsValue_concat _ _ (Nat.mod_lt _ (by norm_num)),
        ih (n / 10) (by omega)]
      simp only [Option.map, Option.some.injEq]
      omega

theorem digitsValue_repr (n : Nat) : digitsValue (Nat.repr n).data = some n :=
  digitsValue_toDigitsCore (n + 1) n (Nat.lt_succ_self n)

theorem digitsValue_append_zeros (l : List Char) (k : Nat) :
    digitsValue (l ++ List.replicate k '0') = (digitsValue l).map (fun n => n * 10 ^ k) := by
  induction k with
  | zero => cases h : digitsValue l <;> simp [h]
  | succ k ih =>
    rw [List.replicate_succ', ← List.append_assoc]
    have := digitsValue_concat (l ++ List.replicate k '0') 0 (by norm_num)
    rw [show Nat.digitChar 0 = '0' from rfl] at this
    rw [this, ih]
    cases h : digitsValue l with
    | none => rfl
    | some n =>
      simp only [Option.map, Option.some.injEq, pow_succ]
      ring

theorem repr_ne_nil (n : Nat) : (Nat.repr n).data ≠ [] := by
  show Nat.toDigitsCore 10 (n + 1) n [] ≠ []
  simp only [Nat.toDigitsCore]
  split
  · simp
  · rw [toDigitsCore_append]; simp

theorem takeWhile_not_dot (whole tail : List Char) (hwd : ∀ c ∈ whole, c ≠ '.')
    (ht : ∀ c, tail.head? = some c → c = '.') :
    (whole ++ tail).takeWhile (fun c => c != '.') = whole ∧
      (whole ++ tail).dropWhile (fun c => c != '.') = tail := by
  have hp : ∀ c ∈ whole, (fun c => c != '.') c = true := by
    intro c hc; simpa using hwd c hc
  rw [List.takeWhile_append_of_pos hp, List.dropWhile_append_of_pos hp]
  cases tail with
  | nil => simp
  | cons c r =>
    have := ht c rfl
    subst this
    simp

/-- The number denoted by a numeral made of an optional `-`, the digits
`whole`, and a tail that is empty or a point followed by digits. -/
theorem decimalValue_of_parts (neg : Bool) (whole tail : List Char) (a b : Nat)
    (hw : whole ≠ []) (hwd : ∀ c ∈ whole, c.isDigit = true)
    (ht : ∀ c, tail.head? = some c → c = '.')
    (ha : digitsValue whole = some a) (hb : digitsValue (tail.drop 1) = some b) :
    decimalValue (String.mk ((if neg then ['-'] else []) ++ whole ++ tail))
      = some ((if neg then -1 else 1) * ((a : ℚ) + (b : ℚ) / 10 ^ (tail.drop 1).length)) := by
  have hnd : ∀ c ∈ whole, c ≠ '.' := fun c hc => not_dot_of_isDigit c (hwd c hc)
  obtain ⟨h1, h2⟩ := takeWhile_not_dot whole tail hnd ht
  cases neg with
  | true =>
    simp only [decimalValue, if_true, List.cons_append, List.nil_append, List.head?_cons,
      List.drop_succ_cons, List.drop_zero, h1, h2, if_neg hw, ha, hb]
  | false =>
    obtain ⟨c, r, rfl⟩ := List.exists_cons_of_ne_nil hw
    have hc : c ≠ '-' := by
      rintro rfl
      exact absurd (hwd '-' (List.mem_cons_self _ _)) (by decide)
    have hhead : ¬ (some c = some '-') := by simpa using hc
    simp only [List.cons_append] at h1 h2
    simp only [decimalValue, List.nil_append, List.cons_append, List.head?_cons,
      if_neg hhead, h1, h2, ha, hb, Bool.false_eq_true, if_false]
    simp

theorem signPart_data (f : ℚ) :
    (signPart f).data = if decide (f < 0) = true then ['-'] else [] := by
  unfold signPart
  by_cases h : f < 0 <;> simp [h]

theorem roundTo_eq (f : ℚ) (p : Nat) (a b len k : Nat)
    (hN : scaled f p = a * 10 ^ p + b * 10 ^ k) (hlen : len + k = p) :
    ((if decide (f < 0) = true then -1 else 1 : ℚ) * ((a : ℚ) + (b : ℚ) / 10 ^ len))
      = roundTo f p := by
  unfold roundTo
  rw [hN, ← hlen]
  have h10 : (10 : ℚ) ^ len ≠ 0 := pow_ne_zero _ (by norm_num)
  have h10k : (10 : ℚ) ^ k ≠ 0 := pow_ne_zero _ (by norm_num)
  have : ((a : ℚ) + (b : ℚ) / 10 ^ len)
      = ((a * 10 ^ (len + k) + b * 10 ^ k : Nat) : ℚ) / 10 ^ (len + k) := by
    push_cast
    rw [pow_add]
    field_simp
    ring
  rw [this]
  by_cases h : f < 0 <;> simp [h]

/-- For a precision of at least 1, the string `precise` returns and the
untrimmed string `FormatFloat` returns both denote the value rounded to that
many decimal places. -/
theorem precise_roundtrip_of_pos (f : ℚ) (p : Nat) (hp : 1 ≤ p) :
    decimalValue (precise f p) = some (roundTo f p) ∧
      decimalValue (FormatFloat f p) = some (roundTo f p) := by
  have hwhole := digitsValue_repr (scaled f p / 10 ^ p)
  have hfrac := digitsValue_fixedDigits p (scaled f p % 10 ^ p)
  rw [Nat.mod_mod] at hfrac
  have hlen : (fracPart f p).length = p := fixedDigits_length _ _
  have hdm : scaled f p = scaled f p / 10 ^ p * 10 ^ p + scaled f p % 10 ^ p :=
    (Nat.div_add_mod' _ _).symm
  constructor
  · obtain ⟨k, hk⟩ := rdropWhile_decompose '0' (fracPart f p)
    have hdata := precise_data f p hp
    generalize (fracPart f p).rdropWhile (fun c => decide (c = '0')) = kept at hk hdata
    have hkl : kept.length + k = p := by
      rw [← hlen, hk]; simp
    have hv : digitsValue (fracPart f p) = some (scaled f p % 10 ^ p) := hfrac
    rw [hk, digitsValue_append_zeros] at hv
    obtain ⟨b, hb, hbk⟩ : ∃ b, digitsValue kept = some b ∧ b * 10 ^ k = scaled f p % 10 ^ p := by
      cases h : digitsValue kept with
      | none => rw [h] at hv; simp at hv
      | some b => rw [h] at hv; exact ⟨b, rfl, by simpa using hv⟩
    have htail : (if kept = [] then [] else '.' :: kept).drop 1 = kept := by
      by_cases h : kept = [] <;> simp [h]
    have e : precise f p
        = String.mk ((if decide (f < 0) = true then ['-'] else [])
            ++ (wholePart f p).data ++ (if kept = [] then [] else '.' :: kept)) := by
      apply String.ext
      rw [hdata, String.data_append, signPart_data]
      by_cases h : kept = [] <;> simp [h]
    have hdot : ∀ c, (if kept = [] then [] else '.' :: kept).head? = some c → c = '.' := by
      intro c hc
      by_cases h : kept = []
      · simp [h] at hc
      · simpa [h] using hc.symm
    rw [e, decimalValue_of_parts (decide (f < 0)) (wholePart f p).data
      (if kept = [] then [] else '.' :: kept) (scaled f p / 10 ^ p) b
      (repr_ne_nil _) (repr_isDigit _) hdot hwhole (by rw [htail]; exact hb), htail]
    exact congrArg some (roundTo_eq f p _ b _ k (by rw [hbk]; exact hdm) hkl)
  · have e : FormatFloat f p
        = String.mk ((if decide (f < 0) = true then ['-'] else [])
            ++ (wholePart f p).data ++ '.' :: fracPart f p) := by
      apply String.ext
      rw [FormatFloat_data f p hp, String.data_append, signPart_data]
    have hdot : ∀ c, ('.' :: fracPart f p).head? = some c → c = '.' := by
      intro c hc
      simpa using hc.symm
    rw [e, decimalValue_of_parts (decide (f < 0)) (wholePart f p).data
      ('.' :: fracPart f p) (scaled f p / 10 ^ p) (scaled f p % 10 ^ p)
      (repr_ne_nil _) (repr_isDigit _) hdot hwhole hfrac]
    simp only [List.drop_succ_cons, List.drop_zero]
    exact congrArg some
      (roundTo_eq f p _ _ _ 0 (by rw [pow_zero, mul_one]; exact hdm) (by simpa using hlen))


/-! ## The polyline elements -/

theorem foldl_eq_join {α : Type} (g : α → String) (l : List α) :
    l.foldl (fun b a => b ++ g a) "" = String.join (l.map g) := by
  unfold String.join
  rw [List.foldl_map]

theorem foldl_writePoint_eq_join (opts : Options) (points : List vector) :
    points.foldl (writePoint opts) "" = String.join (points.map (pointPair opts)) := by
  have h : writePoint opts = fun b pt => b ++ pointPair opts pt := by
    funext b pt
    simp only [writePoint, pointPair]
  rw [h]
  exact foldl_eq_join (pointPair opts) points

theorem writeSegment_eq_polylineElement (opts : Options) (points : List vector) :
    writeSegment opts "" points = polylineElement opts points := by
  simp only [writeSegment, polylineElement]
  rw [foldl_writePoint opts points ("" ++ "<polyline points='"), String.empty_append,
    foldl_writePoint_eq_join]

theorem polylines_eq_join (opts : Options) (segments : List (List vector)) :
    polylines opts segments = String.join (segments.map (polylineElement opts)) := by
  unfold polylines
  have h : writeSegment opts = fun b points => b ++ polylineElement opts points := by
    funext b points
    rw [writeSegment_buf, writeSegment_eq_polylineElement]
  rw [h]
  exact foldl_eq_join (polylineElement opts) segments

theorem SVG_eq_document (stepFactor : ℚ) (s : System) (opts : Options) :
    SVG stepFactor s opts
      = document stepFactor (s.render (intAdd s.min opts.Depth)) opts := by
  rw [SVG_eq, header_eq, polylines_eq_join]
  rfl

/-! ## Dependence of the viewport on the points -/

theorem xSet_mono (A B : List (List vector))
    (h : ∀ pt, pt ∈ A.flatten → pt ∈ B.flatten) : xSet A ⊆ xSet B := by
  rintro r (h0 | ⟨points, hp, pt, hpt, e⟩)
  · exact Or.inl h0
  · obtain ⟨points', hp', hpt'⟩ := List.mem_flatten.mp (h pt (List.mem_flatten.mpr ⟨points, hp, hpt⟩))
    exact Or.inr ⟨points', hp', pt, hpt', e⟩

theorem ySet_mono (A B : List (List vector))
    (h : ∀ pt, pt ∈ A.flatten → pt ∈ B.flatten) : ySet A ⊆ ySet B := by
  rintro r (h0 | ⟨points, hp, pt, hpt, e⟩)
  · exact Or.inl h0
  · obtain ⟨points', hp', hpt'⟩ := List.mem_flatten.mp (h pt (List.mem_flatten.mpr ⟨points, hp, hpt⟩))
    exact Or.inr ⟨points', hp', pt, hpt', e⟩

/-- The bounds of a segment set whose points all occur in another one lie
inside the bounds of the other. -/
theorem bounds_mono (A B : List (List vector))
    (h : ∀ pt, pt ∈ A.flatten → pt ∈ B.flatten) :
    lowest (xCoords B) ≤ lowest (xCoords A) ∧
      highest (xCoords A) ≤ highest (xCoords B) ∧
      lowest (yCoords B) ≤ lowest (yCoords A) ∧
      highest (yCoords A) ≤ highest (yCoords B) :=
  ⟨(lowest_isLeast B).2 (xSet_mono A B h (lowest_isLeast A).1),
    (highest_isGreatest B).2 (xSet_mono A B h (highest_isGreatest A).1),
    (lowest_isLeast_y B).2 (ySet_mono A B h (lowest_isLeast_y A).1),
    (highest_isGreatest_y B).2 (ySet_mono A B h (highest_isGreatest_y A).1)⟩

/-- Two segment sets with the same points have the same viewport. -/
theorem calcViewBox_congr (A B : List (List vector)) (opts : Options)
    (h : ∀ pt, pt ∈ A.flatten ↔ pt ∈ B.flatten) :
    calcViewBox A opts = calcViewBox B opts := by
  obtain ⟨a1, a2, a3, a4⟩ := bounds_mono A B (fun pt => (h pt).1)
  obtain ⟨b1, b2, b3, b4⟩ := bounds_mono B A (fun pt => (h pt).2)
  rw [calcViewBox_eq, calcViewBox_eq, le_antisymm a1 b1, le_antisymm a2 b2,
    le_antisymm a3 b3, le_antisymm a4 b4]

theorem bounds_of_no_points (segments : List (List vector))
    (h : ∀ points ∈ segments, points = []) :
    lowest (xCoords segments) = 0 ∧ highest (xCoords segments) = 0 ∧
      lowest (yCoords segments) = 0 ∧ highest (yCoords segments) = 0 := by
  have hf : segments.flatten = [] := List.flatten_eq_nil_iff.mpr h
  simp [xCoords, yCoords, lowest, highest, hf]

/-- C17: for a segment set with at least one point and a positive thickness,
the width and the height of the viewport are non-negative; each is at least
`2 * pad`, where `pad` is the pad `1.5 * thickness / 2` the function computes,
and `2 * pad` is `1.5 * thickness` (the product the function computes) for a
thickness of at least `2 ^ (-1021)`. -/
theorem calcViewBox_size_lower_bound (segments : List (List vector)) (opts : Options)
    (_hpt : ∃ points ∈ segments, ∃ pt : vector, pt ∈ points) (ht : 0 < opts.Thickness) :
    0 ≤ (calcViewBox segments opts).w ∧ 0 ≤ (calcViewBox segments opts).h ∧
      2 * fl64 (fl64 (3 / 2 * opts.Thickness) / 2) ≤ (calcViewBox segments opts).w ∧
      2 * fl64 (fl64 (3 / 2 * opts.Thickness) / 2) ≤ (calcViewBox segments opts).h ∧
      (pow2 (-1021) ≤ opts.Thickness →
        2 * fl64 (fl64 (3 / 2 * opts.Thickness) / 2) = fl64 (3 / 2 * opts.Thickness)) := by
  have h1 := (lowest_isLeast segments).2 (Or.inl rfl)
  have h2 := (highest_isGreatest segments).2 (Or.inl rfl)
  have h3 := (lowest_isLeast_y segments).2 (Or.inl rfl)
  have h4 := (highest_isGreatest_y segments).2 (Or.inl rfl)
  have hpad := pad_nonneg opts ht.le
  obtain ⟨_, _, a3⟩ := padded_range _ _ _ h1 h2 hpad (pad_rounded opts)
  obtain ⟨_, _, b3⟩ := padded_range _ _ _ h3 h4 hpad (pad_rounded opts)
  rw [calcViewBox_eq]
  simp only [pad] at hpad a3 b3 ⊢
  refine ⟨by linarith, by linarith, a3, b3, ?_⟩
  intro hn
  have hrep : fl64 (pow2 (-1021)) = pow2 (-1021) := by
    have := fl64_of_grid 1 (-1021) (by norm_num) (by norm_num)
    simpa using this
  have hz : pow2 (-1021) ≤ fl64 (3 / 2 * opts.Thickness) :=
    le_fl64_of_le _ _ hrep (by linarith)
  rw [fl64_half _ (fl64_idem _) hz]
  ring

/-- C17, at the segment `(5,3) (10,1)` with thickness 1: the width 11.5 and
the height 4.5 are at least 1.5. -/
theorem calcViewBox_size_lower_bound_witness :
    (calcViewBox [[⟨5, 3⟩, ⟨10, 1⟩]] ⟨0, 1, "black", 2⟩).w = 23 / 2 ∧
      (calcViewBox [[⟨5, 3⟩, ⟨10, 1⟩]] ⟨0, 1, "black", 2⟩).h = 9 / 2 ∧
      2 * fl64 (fl64 (3 / 2 * (1 : ℚ)) / 2) = 3 / 2 ∧
      (0 ≤ (calcViewBox [[⟨5, 3⟩, ⟨10, 1⟩]] ⟨0, 1, "black", 2⟩).w ∧
        0 ≤ (calcViewBox [[⟨5, 3⟩, ⟨10, 1⟩]] ⟨0, 1, "black", 2⟩).h ∧
        2 * fl64 (fl64 (3 / 2 * (1 : ℚ)) / 2)
          ≤ (calcViewBox [[⟨5, 3⟩, ⟨10, 1⟩]] ⟨0, 1, "black", 2⟩).w ∧
        2 * fl64 (fl64 (3 / 2 * (1 : ℚ)) / 2)
          ≤ (calcViewBox [[⟨5, 3⟩, ⟨10, 1⟩]] ⟨0, 1, "black", 2⟩).h ∧
        (pow2 (-1021) ≤ (1 : ℚ) →
          2 * fl64 (fl64 (3 / 2 * (1 : ℚ)) / 2) = fl64 (3 / 2 * (1 : ℚ)))) :=
  ⟨by decide!, by decide!, by decide!,
    calcViewBox_size_lower_bound [[⟨5, 3⟩, ⟨10, 1⟩]] ⟨0, 1, "black", 2⟩
      ⟨[⟨5, 3⟩, ⟨10, 1⟩], by simp, ⟨5, 3⟩, by simp⟩ (by norm_num)⟩

/-- C18: the viewport depends only on the multiset of the points: it is the
same for two segment sets whose points are a permutation of each other, in
particular after permuting the segments, after permuting the points inside
the segments, and after replacing the segment set by the one segment that
concatenates its segments. -/
theorem calcViewBox_perm (A B : List (List vector)) (opts : Options)
    (h : A.flatten.Perm B.flatten ∨ A.Perm B ∨ List.Forall₂ List.Perm A B
      ∨ B = [A.flatten]) :
    calcViewBox A opts = calcViewBox B opts := by
  have hp : A.flatten.Perm B.flatten := by
    rcases h with h | h | h | h
    · exact h
    · exact h.flatten
    · exact List.Perm.flatten_congr h
    · rw [h]; simp
  exact calcViewBox_congr A B opts (fun pt => hp.mem_iff)

/-- C18, at the segments `(-1,2) (3,-4)` and `(5,0)` with thickness 1: the
points in another order and in one segment give the same viewport. -/
theorem calcViewBox_perm_witness :
    calcViewBox [[⟨-1, 2⟩, ⟨3, -4⟩], [⟨5, 0⟩]] ⟨0, 1, "black", 2⟩
      = calcViewBox [[⟨5, 0⟩, ⟨3, -4⟩, ⟨-1, 2⟩]] ⟨0, 1, "black", 2⟩ :=
  calcViewBox_perm [[⟨-1, 2⟩, ⟨3, -4⟩], [⟨5, 0⟩]] [[⟨5, 0⟩, ⟨3, -4⟩, ⟨-1, 2⟩]]
    ⟨0, 1, "black", 2⟩ (Or.inl (by decide))

/-- C19 as stated fails: with thickness 1 and the binary64 value `a` nearest
to 0.1, the viewport of `A = [[(a,0)]]` has the right edge `x + w` printed as
`0.85000000000000009`, and the viewport of `A` followed by `B = [[(-a,0)]]` the
smaller right edge printed as `0.84999999999999998`. -/
theorem calcViewBox_append_shrinks_right_edge :
    fl64 (3602879701896397 / 36028797018963968) = 3602879701896397 / 36028797018963968 ∧
      (calcViewBox ([[⟨3602879701896397 / 36028797018963968, 0⟩]]
            ++ [[⟨-(3602879701896397 / 36028797018963968), 0⟩]]) ⟨0, 1, "black", 2⟩).x
          + (calcViewBox ([[⟨3602879701896397 / 36028797018963968, 0⟩]]
            ++ [[⟨-(3602879701896397 / 36028797018963968), 0⟩]]) ⟨0, 1, "black", 2⟩).w
        < (calcViewBox [[⟨3602879701896397 / 36028797018963968, 0⟩]]
            ⟨0, 1, "black", 2⟩).x
          + (calcViewBox [[⟨3602879701896397 / 36028797018963968, 0⟩]]
            ⟨0, 1, "black", 2⟩).w ∧
      precise
          ((calcViewBox [[⟨3602879701896397 / 36028797018963968, 0⟩]]
              ⟨0, 1, "black", 2⟩).x
            + (calcViewBox [[⟨3602879701896397 / 36028797018963968, 0⟩]]
              ⟨0, 1, "black", 2⟩).w) 17
        = "0.85000000000000009" ∧
      precise
          ((calcViewBox ([[⟨3602879701896397 / 36028797018963968, 0⟩]]
              ++ [[⟨-(3602879701896397 / 36028797018963968), 0⟩]]) ⟨0, 1, "black", 2⟩).x
            + (calcViewBox ([[⟨3602879701896397 / 36028797018963968, 0⟩]]
              ++ [[⟨-(3602879701896397 / 36028797018963968), 0⟩]]) ⟨0, 1, "black", 2⟩).w) 17
        = "0.84999999999999998" := by
  decide!

/-- C19, amended: the viewport of `A` followed by `B` has `x` and `y` no
greater and a width and a height no smaller than the viewport of `A`, and
the padded maxima `xMax + pad` and `yMax + pad` the function computes, its
right and bottom edges before the subtraction, are no smaller. -/
theorem calcViewBox_append_grows (A B : List (List vector)) (opts : Options) :
    (calcViewBox (A ++ B) opts).x ≤ (calcViewBox A opts).x ∧
      (calcViewBox (A ++ B) opts).y ≤ (calcViewBox A opts).y ∧
      (calcViewBox A opts).w ≤ (calcViewBox (A ++ B) opts).w ∧
      (calcViewBox A opts).h ≤ (calcViewBox (A ++ B) opts).h ∧
      fl64 (highest (xCoords A) + fl64 (fl64 (3 / 2 * opts.Thickness) / 2))
        ≤ fl64 (highest (xCoords (A ++ B)) + fl64 (fl64 (3 / 2 * opts.Thickness) / 2)) ∧
      fl64 (highest (yCoords A) + fl64 (fl64 (3 / 2 * opts.Thickness) / 2))
        ≤ fl64 (highest (yCoords (A ++ B)) + fl64 (fl64 (3 / 2 * opts.Thickness) / 2)) := by
  obtain ⟨h1, h2, h3, h4⟩ := bounds_mono A (A ++ B) (fun pt hpt => by
    rw [List.flatten_append]; exact List.mem_append_left _ hpt)
  have x1 := fl64_mono (lowest (xCoords (A ++ B)) - pad opts)
    (lowest (xCoords A) - pad opts) (by linarith)
  have y1 := fl64_mono (lowest (yCoords (A ++ B)) - pad opts)
    (lowest (yCoords A) - pad opts) (by linarith)
  have x2 := fl64_mono (highest (xCoords A) + pad opts)
    (highest (xCoords (A ++ B)) + pad opts) (by linarith)
  have y2 := fl64_mono (highest (yCoords A) + pad opts)
    (highest (yCoords (A ++ B)) + pad opts) (by linarith)
  rw [calcViewBox_eq, calcViewBox_eq]
  exact ⟨x1, y1, fl64_mono _ _ (by linarith), fl64_mono _ _ (by linarith), x2, y2⟩

/-! ## The shape of the document -/

theorem join_cons (a : String) (l : List String) :
    String.join (a :: l) = a ++ String.join l := by
  unfold String.join
  simp only [List.foldl_cons]
  rw [foldl_append_buf (fun s => s) l ("" ++ a), String.empty_append]

theorem join_lines_length (g : List vector → String) (l : List (List vector)) :
    (String.join (l.map (fun points => g points ++ "\n"))).length
      = (String.join (l.map g)).length + l.length := by
  induction l with
  | nil => rfl
  | cons a rest ih =>
    simp only [List.map_cons, join_cons, String.length_append, ih, List.length_cons]
    have : ("\n" : String).length = 1 := rfl
    omega

/-- C11: between the style rule and the closing `</svg>` the document is the
concatenation, in the order of the segment set, of one element
`<polyline points='` body `'/>` for each segment, where the body is the
concatenation, in the order of the points, of `precise pt.x`, a comma,
`precise pt.y` and one space; a segment with no points gives an empty body. -/
theorem SVG_polyline_elements (stepFactor : ℚ) (s : System) (opts : Options) :
    SVG stepFactor s opts
        = (rootTag
              (precise (calcViewBox (s.render (intAdd s.min opts.Depth)) opts).x
                opts.Precision)
              (precise (calcViewBox (s.render (intAdd s.min opts.Depth)) opts).y
                opts.Precision)
              (precise (calcViewBox (s.render (intAdd s.min opts.Depth)) opts).w
                opts.Precision)
              (precise (calcViewBox (s.render (intAdd s.min opts.Depth)) opts).h
                opts.Precision)
            ++ styleRule
                (precise
                  (fl64 (fl64
                    (opts.Thickness
                      * (calcViewBox (s.render (intAdd s.min opts.Depth)) opts).w)
                    / stepFactor)) opts.Precision)
                opts.Color)
          ++ String.join
              ((s.render (intAdd s.min opts.Depth)).map (fun points =>
                "<polyline points='"
                  ++ String.join (points.map (fun pt =>
                      precise pt.x opts.Precision ++ "," ++ precise pt.y opts.Precision
                        ++ " "))
                  ++ "'/>"))
          ++ "</svg>" ∧
      "<polyline points='" ++ String.join (([] : List vector).map (fun pt =>
          precise pt.x opts.Precision ++ "," ++ precise pt.y opts.Precision ++ " "))
          ++ "'/>"
        = "<polyline points=''/>" := by
  refine ⟨?_, by rw [List.map_nil]; decide⟩
  rw [SVG_eq_document]
  rfl

/-- C13 as stated fails: for the segment `(0,0) (10,0)` the document is not
the template with its line breaks; it holds no line break at all. -/
theorem SVG_has_no_line_structure :
    SVG 10 ⟨0, fun _ => [[⟨0, 0⟩, ⟨10, 0⟩]]⟩ ⟨0, 1, "black", 2⟩
        ≠ templateLines 10 [[⟨0, 0⟩, ⟨10, 0⟩]] ⟨0, 1, "black", 2⟩ ∧
      '\n' ∉ (SVG 10 ⟨0, fun _ => [[⟨0, 0⟩, ⟨10, 0⟩]]⟩ ⟨0, 1, "black", 2⟩).data ∧
      SVG 10 ⟨0, fun _ => [[⟨0, 0⟩, ⟨10, 0⟩]]⟩ ⟨0, 1, "black", 2⟩
        = "<svg xmlns='http://www.w3.org/2000/svg' viewBox='-0.75 -0.75 11.5 1.5'><defs><style>polyline \x7b fill: none; stroke-linecap: square; stroke-width: 1.15; stroke: black; \x7d</style></defs><polyline points='0,0 10,0 '/></svg>" := by
  decide!

/-- C13, amended: the document has the shape of the documented template
without its line breaks: the root tag, the style rule, the polyline elements
and the closing `</svg>` follow one another directly; the template with line
breaks is longer by two characters and one more for each segment. -/
theorem SVG_template_without_line_breaks (stepFactor : ℚ) (s : System) (opts : Options) :
    SVG stepFactor s opts
        = rootTag
            (precise (calcViewBox (s.render (intAdd s.min opts.Depth)) opts).x
              opts.Precision)
            (precise (calcViewBox (s.render (intAdd s.min opts.Depth)) opts).y
              opts.Precision)
            (precise (calcViewBox (s.render (intAdd s.min opts.Depth)) opts).w
              opts.Precision)
            (precise (calcViewBox (s.render (intAdd s.min opts.Depth)) opts).h
              opts.Precision)
          ++ styleRule
              (precise
                (fl64 (fl64
                  (opts.Thickness
                    * (calcViewBox (s.render (intAdd s.min opts.Depth)) opts).w)
                  / stepFactor)) opts.Precision)
              opts.Color
          ++ String.join
              ((s.render (intAdd s.min opts.Depth)).map (polylineElement opts))
          ++ "</svg>" ∧
      (templateLines stepFactor (s.render (intAdd s.min opts.Depth)) opts).length
        = (SVG stepFactor s opts).length + 2
            + (s.render (intAdd s.min opts.Depth)).length := by
  constructor
  · rw [SVG_eq_document]
    rfl
  · rw [SVG_eq_document]
    simp only [templateLines, document, String.length_append, join_lines_length]
    have : ("\n" : String).length = 1 := rfl
    omega

theorem intAdd_of_in_range (a b : Int) (h1 : -2 ^ 63 ≤ a + b) (h2 : a + b < 2 ^ 63) :
    intAdd a b = a + b := by
  unfold intAdd
  rw [Int.emod_eq_of_lt (by linarith) (by linarith)]
  ring

/-- C15: `SVG` asks the curve source for the segments at the depth
`min + opts.Depth` (the sum of two Go `int` values, equal to the exact sum when
that is representable), and the document is a function of that segment set
and the options only: two sources whose segment sets at their depths are
equal give identical documents, and so do two calls with identical inputs. -/
theorem SVG_depends_on_segments_only (stepFactor : ℚ) (s₁ s₂ : System) (opts : Options)
    (h : s₁.render (intAdd s₁.min opts.Depth) = s₂.render (intAdd s₂.min opts.Depth)) :
    SVG stepFactor s₁ opts = SVG stepFactor s₂ opts ∧
      SVG stepFactor s₁ opts
        = document stepFactor (s₁.render (intAdd s₁.min opts.Depth)) opts ∧
      (-2 ^ 63 ≤ s₁.min + opts.Depth → s₁.min + opts.Depth < 2 ^ 63 →
        SVG stepFactor s₁ opts
          = document stepFactor (s₁.render (s₁.min + opts.Depth)) opts) := by
  refine ⟨?_, SVG_eq_document stepFactor s₁ opts, ?_⟩
  · rw [SVG_eq_document, SVG_eq_document, h]
  · intro h1 h2
    rw [SVG_eq_document, intAdd_of_in_range _ _ h1 h2]

/-- C15, at two sources with minimum depths 1 and 2 whose segment sets differ
everywhere except at the depths asked for, 3 and 4. -/
theorem SVG_depends_on_segments_only_witness :
    SVG 10 ⟨1, fun n => if n = 3 then [[⟨0, 0⟩, ⟨10, 0⟩]] else []⟩ ⟨2, 1, "black", 2⟩
        = SVG 10 ⟨2, fun n => if n = 4 then [[⟨0, 0⟩, ⟨10, 0⟩]] else [[⟨1, 1⟩]]⟩
            ⟨2, 1, "black", 2⟩ ∧
      SVG 10 ⟨1, fun n => if n = 3 then [[⟨0, 0⟩, ⟨10, 0⟩]] else []⟩ ⟨2, 1, "black", 2⟩
        = document 10
            ((⟨1, fun n => if n = 3 then [[⟨0, 0⟩, ⟨10, 0⟩]] else []⟩ : System).render
              (intAdd 1 2))
            ⟨2, 1, "black", 2⟩ ∧
      (-2 ^ 63 ≤ (1 : Int) + 2 → (1 : Int) + 2 < 2 ^ 63 →
        SVG 10 ⟨1, fun n => if n = 3 then [[⟨0, 0⟩, ⟨10, 0⟩]] else []⟩ ⟨2, 1, "black", 2⟩
          = document 10
              ((⟨1, fun n => if n = 3 then [[⟨0, 0⟩, ⟨10, 0⟩]] else []⟩ : System).render
                (1 + 2))
              ⟨2, 1, "black", 2⟩) :=
  SVG_depends_on_segments_only 10
    ⟨1, fun n => if n = 3 then [[⟨0, 0⟩, ⟨10, 0⟩]] else []⟩
    ⟨2, fun n => if n = 4 then [[⟨0, 0⟩, ⟨10, 0⟩]] else [[⟨1, 1⟩]]⟩
    ⟨2, 1, "black", 2⟩ (by decide)

/-- C16 as stated fails: for a source that gives two segments without
points the document is not the root tag and the style rule followed by
`</svg>`: two empty polyline elements stand in between. -/
theorem SVG_empty_segments_not_header_only :
    SVG 10 ⟨0, fun _ => [[], []]⟩ ⟨0, 1, "red", 2⟩
        ≠ rootTag
            (precise (calcViewBox [[], []] ⟨0, 1, "red", 2⟩).x 2)
            (precise (calcViewBox [[], []] ⟨0, 1, "red", 2⟩).y 2)
            (precise (calcViewBox [[], []] ⟨0, 1, "red", 2⟩).w 2)
            (precise (calcViewBox [[], []] ⟨0, 1, "red", 2⟩).h 2)
          ++ styleRule
              (precise (fl64 (fl64 (1 * (calcViewBox [[], []] ⟨0, 1, "red", 2⟩).w) / 10)) 2)
              "red"
          ++ "</svg>" ∧
      SVG 10 ⟨0, fun _ => [[], []]⟩ ⟨0, 1, "red", 2⟩
        = "<svg xmlns='http://www.w3.org/2000/svg' viewBox='-0.75 -0.75 1.5 1.5'><defs><style>polyline \x7b fill: none; stroke-linecap: square; stroke-width: 0.15; stroke: red; \x7d</style></defs><polyline points=''/><polyline points=''/></svg>" := by
  decide!

/-- C16, amended: for a segment set without points (the empty set, or
segments that all have no points) and every thickness, the viewport is
centred on the origin with the pad as its only extent: `x = y = -pad`,
`w = h = 2 * pad`, `pad = 1.5 * t / 2` in binary64 arithmetic; the document
holds no point pair: for the empty segment set it is the root tag and the
style rule followed by `</svg>`, and for segments without points it is the
root tag and the style rule, one empty polyline element for each segment, and
`</svg>`. -/
theorem SVG_without_points (stepFactor : ℚ) (s : System) (opts : Options)
    (h : ∀ points ∈ s.render (intAdd s.min opts.Depth), points = []) :
    calcViewBox (s.render (intAdd s.min opts.Depth)) opts
        = ⟨-pad opts, -pad opts, 2 * pad opts, 2 * pad opts⟩ ∧
      pad opts = fl64 (fl64 (3 / 2 * opts.Thickness) / 2) ∧
      SVG stepFactor s opts
        = rootTag (precise (-pad opts) opts.Precision) (precise (-pad opts) opts.Precision)
            (precise (2 * pad opts) opts.Precision) (precise (2 * pad opts) opts.Precision)
          ++ styleRule
              (precise (fl64 (fl64 (opts.Thickness * (2 * pad opts)) / stepFactor))
                opts.Precision)
              opts.Color
          ++ String.join
              (List.replicate (s.render (intAdd s.min opts.Depth)).length
                "<polyline points=''/>")
          ++ "</svg>" ∧
      (s.render (intAdd s.min opts.Depth) = [] →
        SVG stepFactor s opts
          = rootTag (precise (-pad opts) opts.Precision)
              (precise (-pad opts) opts.Precision)
              (precise (2 * pad opts) opts.Precision)
              (precise (2 * pad opts) opts.Precision)
            ++ styleRule
                (precise (fl64 (fl64 (opts.Thickness * (2 * pad opts)) / stepFactor))
                  opts.Precision)
                opts.Color
            ++ "</svg>") := by
  obtain ⟨b1, b2, b3, b4⟩ := bounds_of_no_points _ h
  have hneg : fl64 (0 - pad opts) = -pad opts := by
    rw [zero_sub, fl64_neg, pad_rounded]
  have hpos : fl64 (0 + pad opts) = pad opts := by
    rw [zero_add, pad_rounded]
  have hw : fl64 (pad opts - -pad opts) = 2 * pad opts := by
    rw [sub_neg_eq_add, ← two_mul]
    exact fl64_double _ (pad_rounded opts)
  have hv : calcViewBox (s.render (intAdd s.min opts.Depth)) opts
      = ⟨-pad opts, -pad opts, 2 * pad opts, 2 * pad opts⟩ := by
    rw [calcViewBox_eq, b1, b2, b3, b4, hneg, hpos, hw]
  have hel : (s.render (intAdd s.min opts.Depth)).map (polylineElement opts)
      = List.replicate (s.render (intAdd s.min opts.Depth)).length
          "<polyline points=''/>" := by
    rw [List.eq_replicate_iff]
    refine ⟨by simp, ?_⟩
    intro e he
    obtain ⟨points, hp, rfl⟩ := List.mem_map.mp he
    rw [h points hp]
    simp only [polylineElement, List.map_nil]
    decide
  have hdoc := SVG_eq_document stepFactor s opts
  simp only [document, hv, hel] at hdoc
  refine ⟨hv, rfl, hdoc, ?_⟩
  intro hnil
  have hj : String.join (List.replicate ([] : List (List vector)).length
      "<polyline points=''/>") = "" := rfl
  rw [hdoc, hnil, hj, String.append_empty]

/-- C16 amended, at a source that gives two segments without points and at a
source that gives no segment, with thickness 1. -/
theorem SVG_without_points_witness :
    pad ⟨0, 1, "red", 2⟩ = 3 / 4 ∧
      calcViewBox ((⟨0, fun _ => [[], []]⟩ : System).render (intAdd 0 0))
          ⟨0, 1, "red", 2⟩
        = ⟨-pad ⟨0, 1, "red", 2⟩, -pad ⟨0, 1, "red", 2⟩, 2 * pad ⟨0, 1, "red", 2⟩,
            2 * pad ⟨0, 1, "red", 2⟩⟩ ∧
      SVG 10 ⟨0, fun _ => []⟩ ⟨0, 1, "red", 2⟩
        = rootTag (precise (-pad ⟨0, 1, "red", 2⟩) 2) (precise (-pad ⟨0, 1, "red", 2⟩) 2)
            (precise (2 * pad ⟨0, 1, "red", 2⟩) 2) (precise (2 * pad ⟨0, 1, "red", 2⟩) 2)
          ++ styleRule
              (precise (fl64 (fl64 (1 * (2 * pad ⟨0, 1, "red", 2⟩)) / 10)) 2) "red"
          ++ "</svg>" ∧
      SVG 10 ⟨0, fun _ => []⟩ ⟨0, 1, "red", 2⟩
        = "<svg xmlns='http://www.w3.org/2000/svg' viewBox='-0.75 -0.75 1.5 1.5'><defs><style>polyline \x7b fill: none; stroke-linecap: square; stroke-width: 0.15; stroke: red; \x7d</style></defs></svg>" :=
  ⟨by decide!,
    (SVG_without_points 10 ⟨0, fun _ => [[], []]⟩ ⟨0, 1, "red", 2⟩
      (by intro points hp; simpa using hp)).1,
    (SVG_without_points 10 ⟨0, fun _ => []⟩ ⟨0, 1, "red", 2⟩
      (by intro points hp; simp at hp)).2.2.2 rfl,
    by decide!⟩

/-! ## Counting the polyline elements -/

theorem startsWith_append (t : List Char) :
    ∀ s pat : List Char, startsWith s pat = true → startsWith (s ++ t) pat = true := by
  intro s
  induction s with
  | nil =>
    intro pat h
    cases pat with
    | nil => cases t <;> rfl
    | cons p pat => simp [startsWith] at h
  | cons c s ih =>
    intro pat h
    cases pat with
    | nil => rfl
    | cons p pat =>
      simp only [startsWith, List.cons_append, Bool.and_eq_true] at h ⊢
      exact ⟨h.1, ih pat h.2⟩

theorem startsWith_of_append (t : List Char) :
    ∀ s pat : List Char, startsWith (s ++ t) pat = true →
      startsWith s pat = true ∨ startsWith pat s = true := by
  intro s
  induction s with
  | nil => intro pat _; right; cases pat <;> rfl
  | cons c s ih =>
    intro pat h
    cases pat with
    | nil => left; rfl
    | cons p pat =>
      simp only [startsWith, List.cons_append, Bool.and_eq_true] at h ⊢
      rcases ih pat h.2 with h2 | h2
      · exact Or.inl ⟨h.1, h2⟩
      · refine Or.inr ⟨?_, h2⟩
        have := h.1
        simp only [beq_iff_eq] at this ⊢
        exact this.symm

theorem startsWith_mem :
    ∀ pat u : List Char, startsWith pat u = true → ∀ c ∈ u, c ∈ pat := by
  intro pat
  induction pat with
  | nil =>
    intro u h c hc
    cases u with
    | nil => exact absurd hc (List.not_mem_nil _)
    | cons a u => simp [startsWith] at h
  | cons p pat ih =>
    intro u h c hc
    cases u with
    | nil => exact absurd hc (List.not_mem_nil _)
    | cons a u =>
      simp only [startsWith, Bool.and_eq_true, beq_iff_eq] at h
      rcases List.mem_cons.mp hc with rfl | hc
      · rw [← h.1]; exact List.mem_cons_self _ _
      · exact List.mem_cons_of_mem _ (ih u h.2 c hc)

theorem startsWith_left_of_append (t : List Char) :
    ∀ pat s : List Char, startsWith pat (s ++ t) = true → startsWith pat s = true := by
  intro pat
  induction pat with
  | nil =>
    intro s h
    cases s with
    | nil => rfl
    | cons c s => simp [startsWith] at h
  | cons p pat ih =>
    intro s h
    cases s with
    | nil => rfl
    | cons c s =>
      simp only [startsWith, List.cons_append, Bool.and_eq_true] at h ⊢
      exact ⟨h.1, ih s h.2⟩

theorem startsWith_append_of_head (t : List Char) :
    ∀ s pat : List Char, (∀ c, t.head? = some c → c ∉ pat) →
      startsWith (s ++ t) pat = startsWith s pat := by
  intro s
  induction s with
  | nil =>
    intro pat ht
    cases pat with
    | nil => cases t <;> rfl
    | cons p pat =>
      cases t with
      | nil => rfl
      | cons c t =>
        have hc : c ≠ p := fun e => ht c rfl (by rw [e]; exact List.mem_cons_self _ _)
        simp [startsWith, hc]
  | cons c s ih =>
    intro pat ht
    cases pat with
    | nil => rfl
    | cons p pat =>
      simp only [startsWith, List.cons_append, List.append_eq]
      rw [ih pat (fun a ha hmem => ht a ha (List.mem_cons_of_mem _ hmem))]

/-- Text written after a safe text adds no occurrence that starts inside the
safe text. -/
theorem occurrences_append_of_safe (pat t : List Char) :
    ∀ s : List Char, safe pat s = true →
      occurrences pat (s ++ t) = occurrences pat s + occurrences pat t := by
  intro s
  induction s with
  | nil => intro _; simp [occurrences]
  | cons c s ih =>
    intro h
    simp only [safe, Bool.and_eq_true, Bool.or_eq_true, Bool.not_eq_true'] at h
    have hsw : startsWith (c :: s ++ t) pat = startsWith (c :: s) pat := by
      rcases h.1 with h1 | h1
      · rw [h1]; exact startsWith_append t _ pat h1
      · cases h2 : startsWith (c :: s ++ t) pat with
        | false =>
          cases h3 : startsWith (c :: s) pat with
          | false => rfl
          | true => rw [startsWith_append t _ pat h3] at h2; exact absurd h2 (by simp)
        | true =>
          rcases startsWith_of_append t (c :: s) pat h2 with h3 | h3
          · exact h3.symm
          · rw [h3] at h1; exact absurd h1 (by simp)
    simp only [List.cons_append, occurrences, List.append_eq] at hsw ⊢
    simp only [hsw, ih h.2]
    omega

theorem safe_append (pat t : List Char) (ht : safe pat t = true) :
    ∀ s : List Char, safe pat s = true → safe pat (s ++ t) = true := by
  intro s
  induction s with
  | nil => intro _; exact ht
  | cons c s ih =>
    intro h
    simp only [safe, Bool.and_eq_true, Bool.or_eq_true, Bool.not_eq_true'] at h
    simp only [List.cons_append, safe, Bool.and_eq_true, Bool.or_eq_true,
      Bool.not_eq_true']
    refine ⟨?_, ih h.2⟩
    rcases h.1 with h1 | h1
    · exact Or.inl (startsWith_append t (c :: s) pat h1)
    · right
      cases h2 : startsWith pat (c :: (s ++ t)) with
      | false => rfl
      | true =>
        have := startsWith_left_of_append t pat (c :: s) h2
        rw [this] at h1; exact absurd h1 (by simp)

/-- A text without the first character of `pat` is safe and holds no
occurrence of `pat`. -/
theorem safe_of_not_mem (p0 : Char) (rest : List Char) :
    ∀ s : List Char, p0 ∉ s →
      safe (p0 :: rest) s = true ∧ occurrences (p0 :: rest) s = 0 := by
  intro s
  induction s with
  | nil => intro _; exact ⟨rfl, rfl⟩
  | cons c s ih =>
    intro h
    have hc : p0 ≠ c := fun e => h (by rw [e]; exact List.mem_cons_self _ _)
    have hs : p0 ∉ s := fun hm => h (List.mem_cons_of_mem _ hm)
    obtain ⟨i1, i2⟩ := ih hs
    have hc2 : c ≠ p0 := fun e => hc e.symm
    constructor
    · simp [safe, startsWith, hc, i1]
    · simp [occurrences, startsWith, hc2, i2]

/-- A text followed by a safe text that starts with a character outside
`pat`: the whole is safe and the occurrences add up. -/
theorem safe_append_of_head (pat t : List Char) (ht : safe pat t = true)
    (hh : ∀ c, t.head? = some c → c ∉ pat) (hne : t ≠ []) :
    ∀ s : List Char, safe pat (s ++ t) = true ∧
      occurrences pat (s ++ t) = occurrences pat s + occurrences pat t := by
  intro s
  induction s with
  | nil => exact ⟨ht, by simp [occurrences]⟩
  | cons c s ih =>
    obtain ⟨c0, t0, rfl⟩ := List.exists_cons_of_ne_nil hne
    have hc0 : c0 ∉ pat := hh c0 rfl
    constructor
    · simp only [List.cons_append, safe, Bool.and_eq_true, Bool.or_eq_true,
        Bool.not_eq_true']
      refine ⟨Or.inr ?_, ih.1⟩
      cases h2 : startsWith pat (c :: (s ++ c0 :: t0)) with
      | false => rfl
      | true =>
        exact absurd (startsWith_mem pat _ h2 c0
          (List.mem_cons_of_mem _ (List.mem_append_right _ (List.mem_cons_self _ _)))) hc0
    · have := startsWith_append_of_head (c0 :: t0) (c :: s) pat hh
      simp only [List.cons_append, occurrences, List.append_eq] at this ⊢
      simp only [this, ih.2, occurrences]
      omega

theorem mem_of_mem_rdropWhile (a c : Char) (l : List Char)
    (h : c ∈ l.rdropWhile (fun x => decide (x = a))) : c ∈ l := by
  obtain ⟨k, hk⟩ := rdropWhile_decompose a l
  rw [hk]
  exact List.mem_append_left _ h

/-- The characters of a formatted number: the sign, the point and digits. -/
theorem precise_chars (f : ℚ) (p : Nat) :
    ∀ c ∈ (precise f p).data, c = '-' ∨ c = '.' ∨ c.isDigit = true := by
  intro c hc
  unfold precise at hc
  simp only at hc
  rw [TrimRight_data _ "." '.' rfl] at hc
  have hc := mem_of_mem_rdropWhile _ _ _ hc
  rw [TrimRight_data _ "0" '0' rfl] at hc
  have hc := mem_of_mem_rdropWhile _ _ _ hc
  have hsign : ∀ c ∈ (signPart f).data, c = '-' := by
    intro c hc
    unfold signPart at hc
    split at hc
    · simpa using hc
    · exact absurd hc (List.not_mem_nil _)
  unfold FormatFloat at hc
  split at hc
  · simp only [String.data_append, List.mem_append] at hc
    rcases hc with ((h | h) | h) | h
    · exact Or.inl (hsign c h)
    · exact Or.inr (Or.inr (repr_isDigit _ c h))
    · exact Or.inr (Or.inl (by simpa using h))
    · exact Or.inr (Or.inr (fixedDigits_isDigit _ _ c h))
  · simp only [String.data_append, List.mem_append] at hc
    rcases hc with h | h
    · exact Or.inl (hsign c h)
    · exact Or.inr (Or.inr (repr_isDigit _ c h))

theorem precise_no_open (f : ℚ) (p : Nat) : '<' ∉ (precise f p).data := by
  intro h
  rcases precise_chars f p '<' h with h | h | h
  · exact absurd h (by decide)
  · exact absurd h (by decide)
  · exact absurd h (by decide)

theorem polylineOpen_eq : polylineOpen = '<' :: "polyline".data := rfl

/-- Safe texts can be put one after the other: the result is safe and the
occurrences add up. -/
theorem safeCount_append (L₁ L₂ : List Char) (n₁ n₂ : Nat)
    (h₁ : safe polylineOpen L₁ = true ∧ occurrences polylineOpen L₁ = n₁)
    (h₂ : safe polylineOpen L₂ = true ∧ occurrences polylineOpen L₂ = n₂) :
    safe polylineOpen (L₁ ++ L₂) = true ∧
      occurrences polylineOpen (L₁ ++ L₂) = n₁ + n₂ :=
  ⟨safe_append _ _ h₂.1 _ h₁.1,
    by rw [occurrences_append_of_safe _ _ _ h₁.1, h₁.2, h₂.2]⟩

theorem safeCount_of_no_open (L : List Char) (h : '<' ∉ L) :
    safe polylineOpen L = true ∧ occurrences polylineOpen L = 0 := by
  rw [polylineOpen_eq]
  exact safe_of_not_mem '<' _ L h

theorem safeCount_precise (f : ℚ) (p : Nat) :
    safe polylineOpen (precise f p).data = true ∧
      occurrences polylineOpen (precise f p).data = 0 :=
  safeCount_of_no_open _ (precise_no_open f p)

theorem safeCount_rootTag (X Y W H : String)
    (hX : '<' ∉ X.data) (hY : '<' ∉ Y.data) (hW : '<' ∉ W.data) (hH : '<' ∉ H.data) :
    safe polylineOpen (rootTag X Y W H).data = true ∧
      occurrences polylineOpen (rootTag X Y W H).data = 0 := by
  have e : (rootTag X Y W H).data
      = "<svg xmlns='http://www.w3.org/2000/svg' viewBox='".data
        ++ (X.data ++ (" ".data ++ (Y.data ++ (" ".data ++ (W.data ++ (" ".data
          ++ (H.data ++ "'>".data))))))) := by
    simp only [rootTag, String.data_append, List.append_assoc]
  rw [e]
  have sp : safe polylineOpen " ".data = true ∧ occurrences polylineOpen " ".data = 0 := by
    decide
  exact safeCount_append _ _ 0 0 (by decide)
    (safeCount_append _ _ 0 0 (safeCount_of_no_open _ hX)
      (safeCount_append _ _ 0 0 sp
        (safeCount_append _ _ 0 0 (safeCount_of_no_open _ hY)
          (safeCount_append _ _ 0 0 sp
            (safeCount_append _ _ 0 0 (safeCount_of_no_open _ hW)
              (safeCount_append _ _ 0 0 sp
                (safeCount_append _ _ 0 0 (safeCount_of_no_open _ hH) (by decide))))))))

theorem safeCount_styleRule (T C : String) (hT : '<' ∉ T.data) :
    safe polylineOpen (styleRule T C).data = true ∧
      occurrences polylineOpen (styleRule T C).data = occurrences polylineOpen C.data := by
  have e : (styleRule T C).data
      = "<defs><style>polyline \x7b fill: none; stroke-linecap: square; stroke-width: ".data
        ++ (T.data ++ ("; stroke: ".data ++ (C.data ++ "; \x7d</style></defs>".data))) := by
    simp only [styleRule, String.data_append, List.append_assoc]
  rw [e]
  have hD : safe polylineOpen "; \x7d</style></defs>".data = true ∧
      occurrences polylineOpen "; \x7d</style></defs>".data = 0 := by decide
  have hC := safe_append_of_head polylineOpen "; \x7d</style></defs>".data hD.1
    (by intro c hc; have : c = ';' := by simpa using hc.symm
        rw [this]; decide)
    (by decide) C.data
  rw [hD.2, Nat.add_zero] at hC
  have := safeCount_append
    "<defs><style>polyline \x7b fill: none; stroke-linecap: square; stroke-width: ".data
    _ 0 _ (by decide)
    (safeCount_append _ _ 0 _ (safeCount_of_no_open _ hT)
      (safeCount_append "; stroke: ".data _ 0 _ (by decide) hC))
  simpa using this

theorem join_no_open (l : List String) (h : ∀ s ∈ l, '<' ∉ s.data) :
    '<' ∉ (String.join l).data := by
  induction l with
  | nil => exact List.not_mem_nil _
  | cons a rest ih =>
    rw [join_cons, String.data_append, List.mem_append]
    rintro (h1 | h1)
    · exact h a (List.mem_cons_self _ _) h1
    · exact ih (fun s hs => h s (List.mem_cons_of_mem _ hs)) h1

theorem pointPair_no_open (opts : Options) (pt : vector) :
    '<' ∉ (pointPair opts pt).data := by
  simp only [pointPair, String.data_append, List.mem_append]
  rintro (((h | h) | h) | h)
  · exact precise_no_open _ _ h
  · exact absurd h (by decide)
  · exact precise_no_open _ _ h
  · exact absurd h (by decide)

theorem safeCount_polylineElement (opts : Options) (points : List vector) :
    safe polylineOpen (polylineElement opts points).data = true ∧
      occurrences polylineOpen (polylineElement opts points).data = 1 := by
  have e : (polylineElement opts points).data
      = "<polyline points='".data
        ++ ((String.join (points.map (pointPair opts))).data ++ "'/>".data) := by
    simp only [polylineElement, String.data_append, List.append_assoc]
  rw [e]
  have hbody : '<' ∉ (String.join (points.map (pointPair opts))).data := by
    apply join_no_open
    intro s hs
    obtain ⟨pt, _, rfl⟩ := List.mem_map.mp hs
    exact pointPair_no_open opts pt
  exact safeCount_append _ _ 1 0 (by decide)
    (safeCount_append _ _ 0 0 (safeCount_of_no_open _ hbody) (by decide))

theorem safeCount_elements (opts : Options) (segments : List (List vector)) :
    safe polylineOpen (String.join (segments.map (polylineElement opts))).data = true ∧
      occurrences polylineOpen (String.join (segments.map (polylineElement opts))).data
        = segments.length := by
  induction segments with
  | nil => exact ⟨rfl, rfl⟩
  | cons points rest ih =>
    rw [List.map_cons, join_cons, String.data_append, List.length_cons, Nat.add_comm]
    exact safeCount_append _ _ 1 _ (safeCount_polylineElement opts points) ih

/-- The number of occurrences of `<polyline` in the document: one for each
segment, and those of the color string. -/
theorem occurrences_document (stepFactor : ℚ) (segments : List (List vector))
    (opts : Options) :
    occurrences polylineOpen (document stepFactor segments opts).data
      = segments.length + occurrences polylineOpen opts.Color.data := by
  have h := safeCount_append _ _ _ _
    (safeCount_append _ _ _ _
      (safeCount_append _ _ _ _
        (safeCount_rootTag
          (precise (calcViewBox segments opts).x opts.Precision)
          (precise (calcViewBox segments opts).y opts.Precision)
          (precise (calcViewBox segments opts).w opts.Precision)
          (precise (calcViewBox segments opts).h opts.Precision)
          (precise_no_open _ _) (precise_no_open _ _) (precise_no_open _ _)
          (precise_no_open _ _))
        (safeCount_styleRule
          (precise (fl64 (fl64 (opts.Thickness * (calcViewBox segments opts).w) / stepFactor))
            opts.Precision)
          opts.Color (precise_no_open _ _)))
      (safeCount_elements opts segments))
    (show safe polylineOpen "</svg>".data = true ∧
      occurrences polylineOpen "</svg>".data = 0 by decide)
  simp only [document, String.data_append]
  rw [h.2]
  omega

theorem document_starts (stepFactor : ℚ) (segments : List (List vector))
    (opts : Options) :
    ∃ rest : String, document stepFactor segments opts = "<svg" ++ rest := by
  refine ⟨" xmlns='http://www.w3.org/2000/svg' viewBox='"
    ++ precise (calcViewBox segments opts).x opts.Precision ++ " "
    ++ precise (calcViewBox segments opts).y opts.Precision ++ " "
    ++ precise (calcViewBox segments opts).w opts.Precision ++ " "
    ++ precise (calcViewBox segments opts).h opts.Precision ++ "'>"
    ++ styleRule
        (precise (fl64 (fl64 (opts.Thickness * (calcViewBox segments opts).w) / stepFactor))
          opts.Precision)
        opts.Color
    ++ String.join (segments.map (polylineElement opts))
    ++ "</svg>", ?_⟩
  simp only [document, rootTag, ← String.append_assoc]
  rfl

/-- C12 as stated fails: with no segments and the color string `<polyline`
the document holds one occurrence of `<polyline`. -/
theorem SVG_polyline_count_with_color :
    (⟨0, fun _ => []⟩ : System).render (intAdd 0 0) = [] ∧
      occurrences polylineOpen
        (SVG 10 ⟨0, fun _ => []⟩ ⟨0, 1, "<polyline", 2⟩).data = 1 ∧
      SVG 10 ⟨0, fun _ => []⟩ ⟨0, 1, "<polyline", 2⟩
        = "<svg xmlns='http://www.w3.org/2000/svg' viewBox='-0.75 -0.75 1.5 1.5'><defs><style>polyline \x7b fill: none; stroke-linecap: square; stroke-width: 0.15; stroke: <polyline; \x7d</style></defs></svg>" := by
  decide!

/-- C12, amended: for every segment set and every configuration the document
begins with `<svg` and ends with `</svg>`, and the number of occurrences of
`<polyline` in it is the number of segments plus the number of occurrences of
`<polyline` in the color string: it is the number of segments exactly when the
color string holds no `<polyline`. -/
theorem SVG_polyline_count (stepFactor : ℚ) (s : System) (opts : Options) :
    (∃ rest : String, SVG stepFactor s opts = "<svg" ++ rest) ∧
      (∃ front : String, SVG stepFactor s opts = front ++ "</svg>") ∧
      occurrences polylineOpen (SVG stepFactor s opts).data
        = (s.render (intAdd s.min opts.Depth)).length
          + occurrences polylineOpen opts.Color.data ∧
      (occurrences polylineOpen (SVG stepFactor s opts).data
          = (s.render (intAdd s.min opts.Depth)).length
        ↔ occurrences polylineOpen opts.Color.data = 0) := by
  have hocc := occurrences_document stepFactor (s.render (intAdd s.min opts.Depth)) opts
  rw [SVG_eq_document]
  refine ⟨document_starts _ _ _, ⟨_, rfl⟩, hocc, ?_⟩
  rw [hocc]
  omega

/-- C14: for the single segment `(0,0) (10,0)`, thickness 1 and precision 2,
the width of the viewport is `10 + 2 * pad` with `pad = 1.0 * 1.5 / 2 = 0.75`,
the `viewBox` attribute is `-0.75 -0.75 11.5 1.5`, and the document holds the
one polyline element `<polyline points='0,0 10,0 '/>` with two pairs (the
text `<polyline` occurs once, apart from occurrences in the color string). -/
theorem SVG_single_segment_example (stepFactor : ℚ) (m d : Int) (color : String) :
    (calcViewBox [[⟨0, 0⟩, ⟨10, 0⟩]] ⟨d, 1, color, 2⟩).w = 10 + 2 * (1 * (3 / 2) / 2) ∧
      (1 : ℚ) * (3 / 2) / 2 = 3 / 4 ∧
      SVG stepFactor ⟨m, fun _ => [[⟨0, 0⟩, ⟨10, 0⟩]]⟩ ⟨d, 1, color, 2⟩
        = "<svg xmlns='http://www.w3.org/2000/svg' viewBox='-0.75 -0.75 11.5 1.5'>"
          ++ styleRule
              (precise (fl64 (fl64 (1 * (10 + 2 * (1 * (3 / 2) / 2))) / stepFactor)) 2) color
          ++ "<polyline points='0,0 10,0 '/>"
          ++ "</svg>" ∧
      occurrences polylineOpen
          (SVG stepFactor ⟨m, fun _ => [[⟨0, 0⟩, ⟨10, 0⟩]]⟩ ⟨d, 1, color, 2⟩).data
        = 1 + occurrences polylineOpen color.data := by
  have hv0 : calcViewBox [[⟨0, 0⟩, ⟨10, 0⟩]] ⟨0, 1, "", 2⟩
      = ⟨-3 / 4, -3 / 4, 23 / 2, 3 / 2⟩ := by decide!
  have hv : calcViewBox [[⟨0, 0⟩, ⟨10, 0⟩]] ⟨d, 1, color, 2⟩
      = ⟨-3 / 4, -3 / 4, 23 / 2, 3 / 2⟩ := hv0
  refine ⟨by rw [hv]; norm_num, by norm_num, ?_, ?_⟩
  swap
  · rw [SVG_eq_document, occurrences_document]
    rfl
  rw [SVG_eq_document]
  simp only [document, hv]
  have e1 : precise (-3 / 4) 2 = "-0.75" := by decide!
  have e2 : precise (23 / 2) 2 = "11.5" := by decide!
  have e3 : precise (3 / 2) 2 = "1.5" := by decide!
  have e4 : String.join (List.map (polylineElement ⟨d, 1, color, 2⟩) [[⟨0, 0⟩, ⟨10, 0⟩]])
      = "<polyline points='0,0 10,0 '/>" := by
    simp only [polylineElement, pointPair, List.map]
    decide!
  have e5 : (1 : ℚ) * (10 + 2 * (1 * (3 / 2) / 2)) = 1 * (23 / 2) := by norm_num
  rw [e1, e2, e3, e4, e5]
  rfl


end Sfc
